import Mathlib

/-!
Verification of the pasteproof PII detection engine
(src/shared/pii-detector.ts, src/entrypoints/content.tsx).

Texts are modelled as lists of code points (`Str`); JavaScript regular
expressions are modelled by a small regex AST (`Re`) with a backtracking
matcher (`endsRe`) that reproduces the leftmost, priority-ordered, greedy
semantics of JS regexes, and `scanAll` reproduces `String.prototype.matchAll`
with the `g` flag (scan from `lastIndex`, advance past each match, advance by
one on an empty match).  Every built-in pattern of the detector is transcribed
into this AST.
-/

/-- A JS string, as its list of UTF-16 code points (all inputs here are in the
Basic Multilingual Plane, so code points and code units coincide). -/
abbrev Str := List Nat

/-- Code points of a Lean string literal. -/
def str (s : String) : Str := s.toList.map Char.toNat

/-- JS regex `\d`. -/
def isDigitC (c : Nat) : Bool := 48 ≤ c && c ≤ 57

/-- JS regex word character (`\w`): letters, digits and underscore; used for
the `\b` assertion. -/
def isWordC (c : Nat) : Bool :=
  isDigitC c || (65 ≤ c && c ≤ 90) || (97 ≤ c && c ≤ 122) || c == 95

/-- JS regex `\s` (whitespace class). -/
def isSpaceC (c : Nat) : Bool :=
  c == 32 || (9 ≤ c && c ≤ 13) || c == 160 || c == 0x1680 ||
  (0x2000 ≤ c && c ≤ 0x200a) || c == 0x2028 || c == 0x2029 ||
  c == 0x202f || c == 0x205f || c == 0x3000 || c == 0xfeff

/-- ASCII lower-casing of one code point (the inputs in this development are
ASCII, so this agrees with JS `toLowerCase`). -/
def lowerC (c : Nat) : Nat := if 65 ≤ c && c ≤ 90 then c + 32 else c

/-- ASCII lower-casing of a string (JS `toLowerCase` on ASCII input). -/
def lowerStr (s : Str) : Str := s.map lowerC

/-- Regex AST.  `reps lo hi r` is the greedy quantifier `r{lo,hi}`
(`hi = none` meaning unbounded, as in `+` or `*`); `wb` is the word-boundary
assertion `\b`. -/
inductive Re where
  | cls (p : Nat → Bool)
  | eps
  | seq (a b : Re)
  | alt (a b : Re)
  | reps (lo : Nat) (hi : Option Nat) (r : Re)
  | wb

/-- Literal character. -/
def reChar (c : Nat) : Re := .cls (fun x => x == c)

/-- Literal character under the `i` flag. -/
def reCharCI (c : Nat) : Re := .cls (fun x => lowerC x == lowerC c)

/-- Literal string. -/
def reStr (s : String) : Re :=
  (str s).foldr (fun c acc => .seq (reChar c) acc) .eps

/-- Literal string under the `i` flag. -/
def reStrCI (s : String) : Re :=
  (str s).foldr (fun c acc => .seq (reCharCI c) acc) .eps

/-- `r{n}`. -/
def reN (n : Nat) (r : Re) : Re := .reps n (some n) r

/-- `r?`. -/
def reOpt (r : Re) : Re := .reps 0 (some 1) r

/-- `r+`. -/
def rePlus (r : Re) : Re := .reps 1 none r

/-- `r*`. -/
def reStar (r : Re) : Re := .reps 0 none r

/-- `\d`. -/
def reD : Re := .cls isDigitC

/-- Character at a position, if any. -/
def charAt (s : Str) (i : Nat) : Option Nat := s.get? i

/-- Whether the character at `i` (if any) is a word character. -/
def isWordAt (s : Str) (i : Nat) : Bool :=
  match charAt s i with
  | some c => isWordC c
  | none => false

/-- The JS `\b` assertion holds at position `i`. -/
def boundaryAt (s : Str) (i : Nat) : Bool :=
  (if i = 0 then false else isWordAt s (i - 1)) != isWordAt s i

/-- All end positions of a greedy quantifier, in backtracking priority order:
try one more iteration of the body first (iterations must consume at least one
character, which is how JS cuts off empty iterations of unbounded
quantifiers), and allow stopping once the lower bound `lo` is met.  `f i`
enumerates the end positions of one body iteration starting at `i`, in
priority order; `fuel` bounds the number of iterations. -/
def greedyEnds (f : Nat → List Nat) : Nat → Nat → Nat → List Nat
  | 0, lo, i => if lo = 0 then [i] else []
  | fuel + 1, lo, i =>
    (((f i).filter (fun j => i < j)).flatMap
      (fun j => greedyEnds f fuel (lo - 1) j)) ++
    (if lo = 0 then [i] else [])

/-- All end positions of a match of `r` starting at position `i` of `s`, in the
backtracking priority order of a JS regex engine: the head of this list is the
end position the engine actually reports. -/
def endsRe (s : Str) : Re → Nat → List Nat
  | .cls p, i => if (charAt s i).any p then [i + 1] else []
  | .eps, i => [i]
  | .seq a b, i => (endsRe s a i).flatMap (endsRe s b)
  | .alt a b, i => endsRe s a i ++ endsRe s b i
  | .reps lo hi r, i =>
    greedyEnds (endsRe s r) (match hi with | some h => h | none => s.length + 1) lo i
  | .wb, i => if boundaryAt s i then [i] else []

/-- The end position of the match of `r` at position `i`, if `r` matches
there (the first end in priority order, as JS reports). -/
def matchAt (r : Re) (s : Str) (i : Nat) : Option Nat :=
  (endsRe s r i).head?

/-- First position `≥ start` at which `r` matches, with the match end
(JS `RegExp.exec` scanning from `lastIndex`). -/
def searchFrom (r : Re) (s : Str) : Nat → Nat → Option (Nat × Nat)
  | _, 0 => none
  | start, fuel + 1 =>
    if s.length < start then none
    else
      match matchAt r s start with
      | some e => some (start, e)
      | none => searchFrom r s (start + 1) fuel

/-- Worker for `scanAll`: repeatedly search from `pos`, advancing past each
match (and by one past an empty match), as JS `matchAll` does. -/
def scanAllGo (r : Re) (s : Str) : Nat → Nat → List (Nat × Nat)
  | _, 0 => []
  | pos, fuel + 1 =>
    match searchFrom r s pos (s.length + 1 - pos) with
    | none => []
    | some (i, e) => (i, e) :: scanAllGo r s (if i < e then e else i + 1) fuel

/-- All matches of `r` in `s` as (start, end) pairs: JS
`s.matchAll(/r/g)`. -/
def scanAll (r : Re) (s : Str) : List (Nat × Nat) := scanAllGo r s 0 (s.length + 2)

/-- The substring `[i, e)` of `s` (the matched text `match[0]`). -/
def sliceStr (s : Str) (i e : Nat) : Str := (s.drop i).take (e - i)

/-- JS `regex.test(s)`: does `r` match anywhere in `s`? -/
def testRe (r : Re) (s : Str) : Bool :=
  (searchFrom r s 0 (s.length + 1)).isSome

/-- Minimum number of characters any match of `r` consumes. -/
def minLen : Re → Nat
  | .cls _ => 1
  | .eps => 0
  | .seq a b => minLen a + minLen b
  | .alt a b => min (minLen a) (minLen b)
  | .reps lo _ r => lo * minLen r
  | .wb => 0

/-!
Built-in patterns of `BUILT_IN_PATTERNS` (src/shared/pii-detector.ts, lines
41-125), transcribed regex by regex.  Comments quote the source pattern.
-/

/-- Visa branch of the card regex: `4[0-9]{12}(?:[0-9]{3})?`. -/
def ccVisa : Re := .seq (reChar 52) (.seq (reN 12 reD) (reOpt (reN 3 reD)))

/-- Mastercard branch: `5[1-5][0-9]{14}`. -/
def ccMC : Re :=
  .seq (reChar 53) (.seq (.cls (fun c => 49 ≤ c && c ≤ 53)) (reN 14 reD))

/-- Amex branch: `3[47][0-9]{13}`. -/
def ccAmex : Re :=
  .seq (reChar 51) (.seq (.cls (fun c => c == 52 || c == 55)) (reN 13 reD))

/-- Diners-style branch: `3[0-9]{13}`. -/
def ccDiners : Re := .seq (reChar 51) (reN 13 reD)

/-- Discover branch: `6(?:011|5[0-9]{2})[0-9]{12}`. -/
def ccDiscover : Re :=
  .seq (reChar 54)
    (.seq (.alt (reStr "011") (.seq (reChar 53) (reN 2 reD))) (reN 12 reD))

/-- `CREDIT_CARD` regex:
`\b(?:4[0-9]{12}(?:[0-9]{3})?|5[1-5][0-9]{14}|3[47][0-9]{13}|3[0-9]{13}|6(?:011|5[0-9]{2})[0-9]{12})\b`. -/
def reCreditCard : Re :=
  .seq .wb
    (.seq (.alt ccVisa (.alt ccMC (.alt ccAmex (.alt ccDiners ccDiscover)))) .wb)

/-- `SSN` regex: `\b\d{3}-\d{2}-\d{4}\b`. -/
def reSSN : Re :=
  .seq .wb (.seq (reN 3 reD) (.seq (reChar 45)
    (.seq (reN 2 reD) (.seq (reChar 45) (.seq (reN 4 reD) .wb)))))

/-- Local-part class of the email regex: `[A-Za-z0-9._%+-]`. -/
def emailLocalC (c : Nat) : Bool :=
  (65 ≤ c && c ≤ 90) || (97 ≤ c && c ≤ 122) || isDigitC c ||
  c == 46 || c == 95 || c == 37 || c == 43 || c == 45

/-- Domain class of the email regex: `[A-Za-z0-9.-]`. -/
def emailDomC (c : Nat) : Bool :=
  (65 ≤ c && c ≤ 90) || (97 ≤ c && c ≤ 122) || isDigitC c || c == 46 || c == 45

/-- TLD class of the email regex: `[A-Z|a-z]` (the source class literally
contains `|`). -/
def emailTldC (c : Nat) : Bool :=
  (65 ≤ c && c ≤ 90) || (97 ≤ c && c ≤ 122) || c == 124

/-- `EMAIL` regex: `\b[A-Za-z0-9._%+-]+@[A-Za-z0-9.-]+\.[A-Z|a-z]{2,}\b`. -/
def reEmail : Re :=
  .seq .wb (.seq (rePlus (.cls emailLocalC)) (.seq (reChar 64)
    (.seq (rePlus (.cls emailDomC)) (.seq (reChar 46)
      (.seq (.reps 2 none (.cls emailTldC)) .wb)))))

/-- Separator class `[\s-]`. -/
def spaceHyphenC (c : Nat) : Bool := isSpaceC c || c == 45

/-- Separator class `[\s.-]`. -/
def spaceDotHyphenC (c : Nat) : Bool := isSpaceC c || c == 46 || c == 45

/-- `PHONE` regex: `\b(\+\d{1,3}[\s-]?)?\(?\d{3}\)?[\s.-]?\d{3}[\s.-]?\d{4}\b`. -/
def rePhone : Re :=
  .seq .wb
    (.seq (reOpt (.seq (reChar 43) (.seq (.reps 1 (some 3) reD)
        (reOpt (.cls spaceHyphenC)))))
      (.seq (reOpt (reChar 40)) (.seq (reN 3 reD) (.seq (reOpt (reChar 41))
        (.seq (reOpt (.cls spaceDotHyphenC)) (.seq (reN 3 reD)
          (.seq (reOpt (.cls spaceDotHyphenC)) (.seq (reN 4 reD) .wb))))))))

/-- Key-body class of the API-key regex: `[a-zA-Z0-9_\-]`. -/
def apiKeyBodyC (c : Nat) : Bool :=
  (65 ≤ c && c ≤ 90) || (97 ≤ c && c ≤ 122) || isDigitC c || c == 95 || c == 45

/-- Separator class `["\s:=]` of the API-key regex. -/
def apiKeySepC (c : Nat) : Bool := c == 34 || isSpaceC c || c == 58 || c == 61

/-- `API_KEY` regex (flags `gi`):
`(?:api[_-]?key|apikey)["\s:=]+["']?([a-zA-Z0-9_\-]{20,})["']?`. -/
def reApiKey : Re :=
  .seq (.alt (.seq (reStrCI "api") (.seq (reOpt (.cls (fun c => c == 95 || c == 45)))
      (reStrCI "key"))) (reStrCI "apikey"))
    (.seq (rePlus (.cls apiKeySepC))
      (.seq (reOpt (.cls (fun c => c == 34 || c == 39)))
        (.seq (.reps 20 none (.cls apiKeyBodyC))
          (reOpt (.cls (fun c => c == 34 || c == 39))))))

/-- `AWS_KEY` regex: `AKIA[0-9A-Z]{16}`. -/
def reAwsKey : Re :=
  .seq (reStr "AKIA") (reN 16 (.cls (fun c => isDigitC c || (65 ≤ c && c ≤ 90))))

/-- Body class of the private-key regex: `[A-Za-z0-9+\/=\s\n\r]`. -/
def pkBodyC (c : Nat) : Bool :=
  (65 ≤ c && c ≤ 90) || (97 ≤ c && c ≤ 122) || isDigitC c ||
  c == 43 || c == 47 || c == 61 || isSpaceC c

/-- Algorithm-name prefix of the private-key regex: `(?:RSA |EC |DSA |OPENSSH )?`. -/
def pkAlg : Re :=
  reOpt (.alt (reStr "RSA ") (.alt (reStr "EC ") (.alt (reStr "DSA ")
    (reStr "OPENSSH "))))

/-- `PRIVATE_KEY` regex (flags `gs`):
`-----BEGIN (?:RSA |EC |DSA |OPENSSH )?PRIVATE KEY-----[A-Za-z0-9+\/=\s\n\r]+-----END (?:RSA |EC |DSA |OPENSSH )?PRIVATE KEY-----`. -/
def rePrivateKey : Re :=
  .seq (reStr "-----BEGIN ") (.seq pkAlg (.seq (reStr "PRIVATE KEY-----")
    (.seq (rePlus (.cls pkBodyC))
      (.seq (reStr "-----END ") (.seq pkAlg (reStr "PRIVATE KEY-----"))))))

/-- `IP_ADDRESS` regex: `\b(?:\d{1,3}\.){3}\d{1,3}\b`. -/
def reIpAddress : Re :=
  .seq .wb (.seq (reN 3 (.seq (.reps 1 (some 3) reD) (reChar 46)))
    (.seq (.reps 1 (some 3) reD) .wb))

/-- `HIPAA_MRN` regex (flags `gi`): `\bMRN[-\s]?\d{6,12}\b`. -/
def reHipaaMrn : Re :=
  .seq .wb (.seq (reStrCI "MRN") (.seq (reOpt (.cls spaceHyphenC))
    (.seq (.reps 6 (some 12) reD) .wb)))

/-- `HIPAA_ACCOUNT` regex (flags `gi`):
`\bAccount[-\s]?(?:Number|#)?[-\s]?\d{6,12}\b`. -/
def reHipaaAccount : Re :=
  .seq .wb (.seq (reStrCI "Account") (.seq (reOpt (.cls spaceHyphenC))
    (.seq (reOpt (.alt (reStrCI "Number") (reChar 35)))
      (.seq (reOpt (.cls spaceHyphenC)) (.seq (.reps 6 (some 12) reD) .wb)))))

/-- Separator class `[-\s:]`. -/
def hyphenSpaceColonC (c : Nat) : Bool := c == 45 || isSpaceC c || c == 58

/-- Date-separator class `[slash hyphen]`. -/
def slashHyphenC (c : Nat) : Bool := c == 47 || c == 45

/-- `HIPAA_DOB` regex (flags `gi`):
`\b(?:DOB|Date of Birth)[-\s:]?\d{1,2}[slash hyphen]\d{1,2}[slash hyphen]\d{2,4}\b`. -/
def reHipaaDob : Re :=
  .seq .wb (.seq (.alt (reStrCI "DOB") (reStrCI "Date of Birth"))
    (.seq (reOpt (.cls hyphenSpaceColonC))
      (.seq (.reps 1 (some 2) reD) (.seq (.cls slashHyphenC)
        (.seq (.reps 1 (some 2) reD) (.seq (.cls slashHyphenC)
          (.seq (.reps 2 (some 4) reD) .wb)))))))

/-- `PCI_CVV` regex (flags `gi`):
`\b(?:CVV|CVC|Card Verification)[-\s]?(?:Value|Code)?[-\s]?\d{3,4}\b`. -/
def rePciCvv : Re :=
  .seq .wb (.seq (.alt (reStrCI "CVV") (.alt (reStrCI "CVC")
      (reStrCI "Card Verification")))
    (.seq (reOpt (.cls spaceHyphenC))
      (.seq (reOpt (.alt (reStrCI "Value") (reStrCI "Code")))
        (.seq (reOpt (.cls spaceHyphenC)) (.seq (.reps 3 (some 4) reD) .wb)))))

/-- `PCI_PAN` regex (flags `gi`):
`\b(?:PAN|Primary Account Number)[-\s]?\d{13,19}\b`. -/
def rePciPan : Re :=
  .seq .wb (.seq (.alt (reStrCI "PAN") (reStrCI "Primary Account Number"))
    (.seq (reOpt (.cls spaceHyphenC)) (.seq (.reps 13 (some 19) reD) .wb)))

/-- `PCI_TRACK` regex: `\b%?[A-Z]\d{13,19}=[\d?]{4,}\b`. -/
def rePciTrack : Re :=
  .seq .wb (.seq (reOpt (reChar 37)) (.seq (.cls (fun c => 65 ≤ c && c ≤ 90))
    (.seq (.reps 13 (some 19) reD) (.seq (reChar 61)
      (.seq (.reps 4 none (.cls (fun c => isDigitC c || c == 63))) .wb)))))

/-- `PCI_EXPIRY` regex (flags `gi`):
`\b(?:Exp|Expiry|Expiration)[-\s:]?\d{1,2}[slash hyphen]\d{2,4}\b`. -/
def rePciExpiry : Re :=
  .seq .wb (.seq (.alt (reStrCI "Exp") (.alt (reStrCI "Expiry")
      (reStrCI "Expiration")))
    (.seq (reOpt (.cls hyphenSpaceColonC))
      (.seq (.reps 1 (some 2) reD) (.seq (.cls slashHyphenC)
        (.seq (.reps 2 (some 4) reD) .wb)))))

/-- Passport-number class `[A-Z0-9]` under the `i` flag. -/
def passportC (c : Nat) : Bool :=
  (65 ≤ c && c ≤ 90) || (97 ≤ c && c ≤ 122) || isDigitC c

/-- `GDPR_PASSPORT` regex (flags `gi`):
`\b(?:Passport|Passport Number|Passport #)[-\s:]?[A-Z0-9]{6,9}\b`. -/
def reGdprPassport : Re :=
  .seq .wb (.seq (.alt (reStrCI "Passport") (.alt (reStrCI "Passport Number")
      (reStrCI "Passport #")))
    (.seq (reOpt (.cls hyphenSpaceColonC)) (.seq (.reps 6 (some 9) (.cls passportC)) .wb)))

/-- Letter class `[A-Z]` under the `i` flag. -/
def letterCIC (c : Nat) : Bool := (65 ≤ c && c ≤ 90) || (97 ≤ c && c ≤ 122)

/-- `GDPR_NIN` regex (flags `gi`):
`\b(?:NI|NINO|National Insurance)[-\s]?[A-Z]{2}\d{6}[A-Z]\b`. -/
def reGdprNin : Re :=
  .seq .wb (.seq (.alt (reStrCI "NI") (.alt (reStrCI "NINO")
      (reStrCI "National Insurance")))
    (.seq (reOpt (.cls spaceHyphenC))
      (.seq (reN 2 (.cls letterCIC)) (.seq (reN 6 reD) (.seq (.cls letterCIC) .wb)))))

/-- `GDPR_IBAN` regex: `\b[A-Z]{2}\d{2}[A-Z0-9]{4,30}\b` (case-sensitive). -/
def reGdprIban : Re :=
  .seq .wb (.seq (reN 2 (.cls (fun c => 65 ≤ c && c ≤ 90)))
    (.seq (reN 2 reD)
      (.seq (.reps 4 (some 30) (.cls (fun c => (65 ≤ c && c ≤ 90) || isDigitC c))) .wb)))

/-!
The detector itself (src/shared/pii-detector.ts, lines 1-351).
-/

/-- One entry of `BUILT_IN_PATTERNS`: a PII type tag, a compiled regex and an
optional validator. -/
structure BuiltInPattern where
  type : String
  regex : Re
  validate : Option (Str → Bool)

/-- `luhnCheck` (pii-detector.ts lines 131-151): strip non-digits, require 13
to 19 digits, then sum right-to-left doubling every second digit (subtracting
9 when the doubled digit exceeds 9); valid when the sum is a multiple of 10.
`luhnGo` walks the reversed digit list with the loop's `isEven` flag. -/
def luhnGo : Bool → List Nat → Nat
  | _, [] => 0
  | isEven, d :: rest =>
    (if isEven then (if 9 < d * 2 then d * 2 - 9 else d * 2) else d) +
      luhnGo (!isEven) rest

/-- `luhnCheck(cardNumber)`. -/
def luhnCheck (cardNumber : Str) : Bool :=
  let digits := (cardNumber.filter isDigitC).map (fun c => c - 48)
  if digits.length < 13 || 19 < digits.length then false
  else luhnGo false digits.reverse % 10 == 0

/-- The `BUILT_IN_PATTERNS` constant (pii-detector.ts lines 41-125), in source
order; only `CREDIT_CARD` carries a validator (`luhnCheck`). -/
def BUILT_IN_PATTERNS : List BuiltInPattern :=
  [ ⟨"CREDIT_CARD", reCreditCard, some luhnCheck⟩,
    ⟨"SSN", reSSN, none⟩,
    ⟨"EMAIL", reEmail, none⟩,
    ⟨"PHONE", rePhone, none⟩,
    ⟨"API_KEY", reApiKey, none⟩,
    ⟨"AWS_KEY", reAwsKey, none⟩,
    ⟨"PRIVATE_KEY", rePrivateKey, none⟩,
    ⟨"IP_ADDRESS", reIpAddress, none⟩,
    ⟨"HIPAA_MRN", reHipaaMrn, none⟩,
    ⟨"HIPAA_ACCOUNT", reHipaaAccount, none⟩,
    ⟨"HIPAA_DOB", reHipaaDob, none⟩,
    ⟨"PCI_CVV", rePciCvv, none⟩,
    ⟨"PCI_PAN", rePciPan, none⟩,
    ⟨"PCI_TRACK", rePciTrack, none⟩,
    ⟨"PCI_EXPIRY", rePciExpiry, none⟩,
    ⟨"GDPR_PASSPORT", reGdprPassport, none⟩,
    ⟨"GDPR_NIN", reGdprNin, none⟩,
    ⟨"GDPR_IBAN", reGdprIban, none⟩ ]

/-- `detectPiiType(value)` (pii-detector.ts lines 155-190): shape checks, in
source order, used to normalize custom-pattern matches.  Each check is the
source's `regex.test(value)`; the credit-card check additionally requires
`luhnCheck(value)`. -/
def detectPiiType (value : Str) : Option String :=
  if testRe reSSN value then some "SSN"
  else if testRe reEmail value then some "EMAIL"
  else if testRe rePhone value then some "PHONE"
  else if testRe reCreditCard value && luhnCheck value then some "CREDIT_CARD"
  else if testRe reAwsKey value then some "AWS_KEY"
  else if testRe rePrivateKey value then some "PRIVATE_KEY"
  else none

/-- The `is_active` field of a custom pattern may arrive from the API as a
boolean, a number or a string. -/
inductive ActiveFlag where
  | bool (b : Bool)
  | num (n : Int)
  | strv (s : Str)
deriving DecidableEq

/-- A custom pattern (pii-detector.ts lines 31-38).  `compiled` is the
outcome of `new RegExp(pattern, 'gi')` on the pattern source: `some re` when
the pattern compiles to the regex `re`, `none` when the constructor throws. -/
structure CustomPattern where
  id : String
  name : String
  compiled : Option Re
  pattern_type : String
  is_active : ActiveFlag

/-- The `is_active` filter of `setCustomPatterns` (pii-detector.ts lines
194-207): booleans as-is, numbers when equal to 1, strings when `'1'` or
case-insensitively `'true'`. -/
def isActivePattern (p : CustomPattern) : Bool :=
  match p.is_active with
  | .bool b => b
  | .num n => n == 1
  | .strv s => s == str "1" || lowerStr s == str "true"

/-- `setCustomPatterns(patterns)` (pii-detector.ts lines 193-218): the stored
custom-pattern list is replaced by the active entries.  The source then
test-compiles each entry, but only logs a compile failure: nothing is removed
and nothing is returned. -/
def setCustomPatterns (patterns : List CustomPattern) : List CustomPattern :=
  patterns.filter isActivePattern

/-- A detection (pii-detector.ts lines 22-29).  `stop` is the source's `end`
field (offsets may be absent). -/
structure DetectionResult where
  type : String
  value : Str
  start : Option Nat
  stop : Option Nat
  confidence : Option Rat
  patternName : Option String
deriving DecidableEq

/-- The built-in loop of `detectPii` (pii-detector.ts lines 228-249): run
every built-in matcher in order, keep the matches whose validator (if any)
accepts, and record offsets.  The source computes
`end: match.index ? match.index + value.length : undefined`, so a match at
index 0 gets no end offset (JS truthiness of 0). -/
def mkBuiltin (pattern : BuiltInPattern) (text : Str) (m : Nat × Nat) :
    Option DetectionResult :=
  let value := sliceStr text m.1 m.2
  if (pattern.validate.map (fun v => v value)).getD true then
    some ⟨pattern.type, value, some m.1,
      if m.1 = 0 then none else some (m.1 + value.length), none, none⟩
  else none

def builtinDetections (text : Str) : List DetectionResult :=
  BUILT_IN_PATTERNS.flatMap (fun pattern =>
    (scanAll pattern.regex text).filterMap (mkBuiltin pattern text))

/-- The duplicate test of the custom loop (pii-detector.ts lines 263-268): a
custom match is dropped when a built-in detection has the same value, start
and end. -/
def alreadyDetected (builtInResults : List DetectionResult) (value : Str)
    (start stop : Option Nat) : Bool :=
  builtInResults.any (fun builtIn =>
    builtIn.value == value && builtIn.start == start && builtIn.stop == stop)

/-- Type normalization of the custom loop (pii-detector.ts lines 275-288):
use the shape-check type when one accepts, otherwise collapse the generic
labels `CUSTOM` / `REGEX` / unset to `CUSTOM` and keep any other declared
label. -/
def normalizeType (pattern_type : String) (value : Str) : String :=
  match detectPiiType value with
  | some detected => detected
  | none =>
    if pattern_type = "CUSTOM" || pattern_type = "REGEX" || pattern_type = "" then
      "CUSTOM"
    else pattern_type

/-- The constant custom-match confidence 0.9 (pii-detector.ts line 295),
written as an explicit fraction. -/
def customConfidence : Rat := ⟨9, 10, by norm_num, by norm_num⟩

/-- The custom loop of `detectPii` (pii-detector.ts lines 252-302): each
stored pattern is compiled and scanned inside a try/catch, so a pattern that
fails to compile (`compiled = none`) contributes nothing; matches that
coincide with a built-in detection are skipped; the rest are normalized and
tagged with confidence 0.9 and the pattern name.  Here `end` is computed from
`start !== undefined`, so it is always present. -/
def mkCustom (builtInResults : List DetectionResult)
    (customPattern : CustomPattern) (text : Str) (m : Nat × Nat) :
    Option DetectionResult :=
  let value := sliceStr text m.1 m.2
  let start := some m.1
  let stop := some (m.1 + value.length)
  if alreadyDetected builtInResults value start stop then none
  else
    some ⟨normalizeType customPattern.pattern_type value, value, start,
      stop, some customConfidence, some customPattern.name⟩

def customDetections (builtInResults : List DetectionResult)
    (customPatterns : List CustomPattern) (text : Str) : List DetectionResult :=
  customPatterns.flatMap (fun customPattern =>
    match customPattern.compiled with
    | none => []
    | some regex =>
      (scanAll regex text).filterMap (mkCustom builtInResults customPattern text))

/-- The deduplication key `value:start:end` (pii-detector.ts line 323).  The
start and end render as decimal numbers or `undefined`, so the key string
determines this triple. -/
def keyOf (r : DetectionResult) : Str × Option Nat × Option Nat :=
  (r.value, r.start, r.stop)

/-- `isBuiltInDetection` (pii-detector.ts lines 310-318): the result agrees
with some built-in detection on value, offsets and type. -/
def isBuiltInDetection (builtInResults : List DetectionResult)
    (result : DetectionResult) : Bool :=
  builtInResults.any (fun builtIn =>
    builtIn.value == result.value && builtIn.start == result.start &&
    builtIn.stop == result.stop && builtIn.type == result.type)

/-- The `isDuplicate` test of the second pass (pii-detector.ts lines
336-341): same value and offsets as a built-in detection, type ignored. -/
def isDuplicateOfBuiltIn (builtInResults : List DetectionResult)
    (result : DetectionResult) : Bool :=
  builtInResults.any (fun builtIn =>
    builtIn.value == result.value && builtIn.start == result.start &&
    builtIn.stop == result.stop)

/-- First deduplication pass (pii-detector.ts lines 320-329): keep the first
occurrence of each key among the results that qualify as built-in detections;
returns the kept results and the final `seen` set. -/
def dedupPass1 (builtInResults : List DetectionResult) :
    List DetectionResult → List (Str × Option Nat × Option Nat) →
    List DetectionResult × List (Str × Option Nat × Option Nat)
  | [], seen => ([], seen)
  | r :: rest, seen =>
    if isBuiltInDetection builtInResults r then
      if keyOf r ∈ seen then dedupPass1 builtInResults rest seen
      else
        let out := dedupPass1 builtInResults rest (keyOf r :: seen)
        (r :: out.1, out.2)
    else dedupPass1 builtInResults rest seen

/-- Second deduplication pass (pii-detector.ts lines 331-348): keep the
remaining results whose key is unseen and which do not duplicate a built-in
detection's value and offsets. -/
def dedupPass2 (builtInResults : List DetectionResult) :
    List DetectionResult → List (Str × Option Nat × Option Nat) →
    List DetectionResult
  | [], _ => []
  | r :: rest, seen =>
    if isBuiltInDetection builtInResults r then dedupPass2 builtInResults rest seen
    else if isDuplicateOfBuiltIn builtInResults r || keyOf r ∈ seen then
      dedupPass2 builtInResults rest seen
    else r :: dedupPass2 builtInResults rest (keyOf r :: seen)

/-- The deduplication of `detectPii` (pii-detector.ts lines 304-348): built-in
detections first, then non-duplicate custom detections, sharing one `seen`
set. -/
def dedupResults (builtInResults results : List DetectionResult) :
    List DetectionResult :=
  let pass1 := dedupPass1 builtInResults results []
  pass1.1 ++ dedupPass2 builtInResults results pass1.2

/-- `detectPii(text)` (pii-detector.ts lines 221-351), with the module-level
custom-pattern list passed explicitly. -/
def detectPii (customPatterns : List CustomPattern) (text : Str) :
    List DetectionResult :=
  if text.length = 0 then []
  else
    let builtInResults := builtinDetections text
    let results := builtInResults ++ customDetections builtInResults customPatterns text
    dedupResults builtInResults results

/-!
The masking engine: `anonymizeValue` (src/entrypoints/content.tsx, lines
292-323).
-/

/-- The redaction glyph (the bullet, U+2022). -/
def bulletC : Nat := 0x2022

/-- JS `String.prototype.split` on a single separator character. -/
def jsSplit (sep : Nat) : Str → List Str
  | [] => [[]]
  | c :: rest =>
    if c = sep then [] :: jsSplit sep rest
    else
      match jsSplit sep rest with
      | h :: t => (c :: h) :: t
      | [] => [[c]]

/-- JS `masked.match(/.{1,4}/g)` on a non-empty string: cut into chunks of
four (last chunk shorter). -/
def chunksOf4 : Str → List Str
  | [] => []
  | c :: rest => (c :: rest.take 3) :: chunksOf4 (rest.drop 3)
termination_by s => s.length
decreasing_by simp [List.length_drop]; omega

/-- Join strings with a single space (JS `Array.prototype.join(' ')`). -/
def joinSp (l : List Str) : Str := (l.intersperse (str " ")).flatten

/-- Count of digit characters from position `k` (inclusive) to the end of
`v` — the callback's `digitsToEnd`. -/
def digitsFrom (v : Str) (k : Nat) : Nat := ((v.drop k).filter isDigitC).length

/-- `anonymizeValue(detection)` (content.tsx lines 292-323).
`CREDIT_CARD`: strip whitespace, keep the last 4 digits, replace the rest
with bullets, and re-insert 4-groups when the original value contained a
space (when the masked part is empty, JS evaluates
`undefined + ' ' + last4`, producing a string starting with `undefined `).
`EMAIL`: keep the first character of the local part, mask the rest with
`max(len - 1, 2)` bullets, keep the domain.  `SSN`/`PHONE`: mask every digit
except the last four.  Anything else: the literal `[REDACTED]`. -/
def anonymizeValue (detection : DetectionResult) : Str :=
  if detection.type = "CREDIT_CARD" then
    let cleaned := detection.value.filter (fun c => !isSpaceC c)
    let last4 := cleaned.drop (cleaned.length - 4)
    let masked := List.replicate (cleaned.length - 4) bulletC
    if detection.value.contains 32 then
      if masked = [] then str "undefined " ++ last4
      else joinSp (chunksOf4 masked) ++ str " " ++ last4
    else masked ++ last4
  else if detection.type = "EMAIL" then
    match jsSplit 64 detection.value with
    | user :: domain :: _ =>
      if user = [] || domain = [] then str "[REDACTED]"
      else
        user.take 1 ++ List.replicate (max (user.length - 1) 2) bulletC ++
          str "@" ++ domain
    | _ => str "[REDACTED]"
  else if detection.type = "SSN" || detection.type = "PHONE" then
    detection.value.enum.map (fun p =>
      if isDigitC p.2 && 4 < digitsFrom detection.value p.1 then bulletC else p.2)
  else str "[REDACTED]"

/-!
The field-context classifier: `getExpectedInputType` and
`filterExpectedDetections` (src/entrypoints/content.tsx of the source tree,
lines 378-473 and 1369-1377).
-/

/-- The attribute snapshot of a form element that `getExpectedInputType`
reads: id, name, placeholder, type, autocomplete, aria-label, title, and the
text of an associated label (empty when absent). -/
structure FieldAttrs where
  id : Str
  name : Str
  placeholder : Str
  type : Str
  autocomplete : Str
  ariaLabel : Str
  title : Str
  labelText : Str

/-- JS `String.prototype.includes`. -/
def strIncludes (h n : Str) : Bool :=
  (List.range (h.length + 1)).any (fun i => n.isPrefixOf (h.drop i))

/-- JS regex `.` without the `s` flag (anything but a line terminator). -/
def reDot : Re := .cls (fun c => !(c == 10 || c == 13 || c == 0x2028 || c == 0x2029))

/-- Keyword regex `\b(email|e-mail|mail)\b`. -/
def kwEmail : Re :=
  .seq .wb (.seq (.alt (reStr "email") (.alt (reStr "e-mail") (reStr "mail"))) .wb)

/-- Keyword regex `\b(phone|telephone|mobile|cell|fax)\b`. -/
def kwPhone : Re :=
  .seq .wb (.seq (.alt (reStr "phone") (.alt (reStr "telephone")
    (.alt (reStr "mobile") (.alt (reStr "cell") (reStr "fax"))))) .wb)

/-- Keyword regex `\b(password|passwd|pwd)\b`. -/
def kwPassword : Re :=
  .seq .wb (.seq (.alt (reStr "password") (.alt (reStr "passwd") (reStr "pwd"))) .wb)

/-- Keyword regex `\b(ssn|social\s*security|social\s*insurance)\b`. -/
def kwSsn : Re :=
  .seq .wb (.seq (.alt (reStr "ssn")
    (.alt (.seq (reStr "social") (.seq (reStar (.cls isSpaceC)) (reStr "security")))
      (.seq (reStr "social") (.seq (reStar (.cls isSpaceC)) (reStr "insurance"))))) .wb)

/-- Keyword regex `\b(card|credit.*card|debit.*card|cc.*number|card.*number)\b`. -/
def kwCard : Re :=
  .seq .wb (.seq (.alt (reStr "card")
    (.alt (.seq (reStr "credit") (.seq (reStar reDot) (reStr "card")))
      (.alt (.seq (reStr "debit") (.seq (reStar reDot) (reStr "card")))
        (.alt (.seq (reStr "cc") (.seq (reStar reDot) (reStr "number")))
          (.seq (reStr "card") (.seq (reStar reDot) (reStr "number"))))))) .wb)

/-- Keyword regex `\b(birth.*date|dob|date.*of.*birth)\b`. -/
def kwDob : Re :=
  .seq .wb (.seq (.alt (.seq (reStr "birth") (.seq (reStar reDot) (reStr "date")))
    (.alt (reStr "dob")
      (.seq (reStr "date") (.seq (reStar reDot) (.seq (reStr "of")
        (.seq (reStar reDot) (reStr "birth"))))))) .wb)

/-- `getExpectedInputType(element)` (content.tsx lines 378-473): lower-case
every attribute, join them (with the label text) into one search string, and
collect the expected PII categories by attribute equality, `autocomplete`
substring checks and keyword regexes.  The returned `Set` is modelled as the
list of added categories in insertion order. -/
def getExpectedInputType (el : FieldAttrs) : List String :=
  let id := lowerStr el.id
  let name := lowerStr el.name
  let placeholder := lowerStr el.placeholder
  let ty := lowerStr el.type
  let autocomplete := lowerStr el.autocomplete
  let ariaLabel := lowerStr el.ariaLabel
  let title := lowerStr el.title
  let labelText := lowerStr el.labelText
  let allText :=
    joinSp [id, name, placeholder, ty, autocomplete, ariaLabel, title] ++
      str " " ++ labelText
  (if ty == str "email" || strIncludes autocomplete (str "email") ||
      testRe kwEmail allText then ["EMAIL"] else []) ++
  (if ty == str "tel" || strIncludes autocomplete (str "tel") ||
      testRe kwPhone allText then ["PHONE"] else []) ++
  (if ty == str "password" || strIncludes autocomplete (str "password") ||
      testRe kwPassword allText then ["PASSWORD"] else []) ++
  (if strIncludes autocomplete (str "ssn") || testRe kwSsn allText then
    ["SSN"] else []) ++
  (if strIncludes autocomplete (str "cc-") || autocomplete == str "cc-number" ||
      testRe kwCard allText then ["CREDIT_CARD"] else []) ++
  (if strIncludes autocomplete (str "bday") || testRe kwDob allText then
    ["DATE_OF_BIRTH"] else [])

/-- `filterExpectedDetections(detections, expectedTypes)` (content.tsx lines
1369-1377): with no expected categories the list is returned unchanged;
otherwise every detection whose type is in the expected set is removed. -/
def filterExpectedDetections (detections : List DetectionResult)
    (expectedTypes : List String) : List DetectionResult :=
  if expectedTypes.length = 0 then detections
  else detections.filter (fun d => !(expectedTypes.contains d.type))

/-!
The detection event queue: class `DetectionQueue` (src/entrypoints/content.tsx,
lines 33-89).  `flush` is an `async` method: a call from `add` runs
synchronously up to the first `await`, and `processing` stays set from the
splice until the delivery promise settles (the `finally` clause).  The model
therefore has two steps: `flush` is the synchronous prefix of a `flush()`
call, and `settle` is the later settling of the awaited delivery.  The API
client being available is the one external condition `flush` depends on;
delivery success or failure does not change the state (a failed batch is not
re-queued).
-/

/-- The `action` field of a queued detection event. -/
inductive QueueAction where
  | detected
  | blocked
  | anonymized
deriving DecidableEq

/-- A queued detection event (the `metadata` record carries no structure the
queue logic reads, so it is left out). -/
structure QueueItem where
  type : String
  domain : String
  action : QueueAction
  team_id : Option String
deriving DecidableEq

/-- The mutable state of a `DetectionQueue`: the pending items and the
`processing` re-entrancy flag. -/
structure DetectionQueue where
  queue : List QueueItem
  processing : Bool
deriving DecidableEq

/-- `BATCH_SIZE` (content.tsx line 42). -/
def BATCH_SIZE : Nat := 10

/-- A fresh queue. -/
def DetectionQueue.initial : DetectionQueue := ⟨[], false⟩

/-- The synchronous prefix of a `flush()` call (content.tsx lines 65-88), up
to the first `await`: a no-op when a flush is already processing or the queue
is empty; when no API client is available `processing` is set and immediately
cleared again and the queue is untouched; otherwise the first `BATCH_SIZE`
items are spliced off and handed to the client, and `processing` remains set
until the awaited delivery settles. -/
def DetectionQueue.flush (apiClientAvailable : Bool) (q : DetectionQueue) :
    DetectionQueue :=
  if q.processing || q.queue.isEmpty then q
  else if !apiClientAvailable then { q with processing := false }
  else { q with queue := q.queue.drop BATCH_SIZE, processing := true }

/-- The awaited delivery promise settling (the `finally` of content.tsx lines
85-87): whether `logDetectionsBatch` resolved or rejected, `processing` is
cleared and the spliced batch is not re-queued. -/
def DetectionQueue.settle (q : DetectionQueue) : DetectionQueue :=
  { q with processing := false }

/-- `add(detection)` (content.tsx lines 50-63): push the item, and flush once
the queue has reached `BATCH_SIZE` items. -/
def DetectionQueue.add (apiClientAvailable : Bool) (q : DetectionQueue)
    (detection : QueueItem) : DetectionQueue :=
  let q := { q with queue := q.queue ++ [detection] }
  if BATCH_SIZE ≤ q.queue.length then q.flush apiClientAvailable else q

/-!
Specification-side definitions, written from the specification text alone,
for the refinement claims that compare them with the source functions.
-/

/-- Modelled from the spec: the Luhn digit transform — double the digit and
subtract 9 if the doubled value exceeds 9. -/
def specLuhnDouble (d : Nat) : Nat := if 9 < d * 2 then d * 2 - 9 else d * 2

/-- Modelled from the spec: "sum digits right-to-left, doubling every second
digit and subtracting 9 if the doubled value exceeds 9" — the digit at
distance `i` from the right end is doubled when `i` is odd. -/
def specLuhnSum (digits : List Nat) : Nat :=
  (digits.reverse.enum.map (fun p => if p.1 % 2 = 1 then specLuhnDouble p.2 else p.2)).sum

/-- The card-brand shapes accepted by the `CREDIT_CARD` regex, as a predicate
on a digit string: Visa (4, 13 or 16 digits), Mastercard (5 then 1-5, 16
digits), Amex (3 then 4 or 7, 15 digits), the bare `3[0-9]{13}` branch (14
digits), and Discover (6011 or 65, 16 digits). -/
def specCardShape (t : Str) : Bool :=
  t.all isDigitC &&
  ((t.head? == some 52 && (t.length == 13 || t.length == 16)) ||
   (t.head? == some 53 && (t.get? 1).any (fun c => 49 ≤ c && c ≤ 53) &&
     t.length == 16) ||
   (t.head? == some 51 && (t.get? 1).any (fun c => c == 52 || c == 55) &&
     t.length == 15) ||
   (t.head? == some 51 && t.length == 14) ||
   (t.head? == some 54 &&
     ((t.get? 1 == some 48 && t.get? 2 == some 49 && t.get? 3 == some 49) ||
      (t.get? 1 == some 53 && (t.get? 2).any isDigitC && (t.get? 3).any isDigitC)) &&
     t.length == 16))

/-!
Characterization of the `CREDIT_CARD` regex on arbitrary strings: runs of
characters of a class, digit-only regexes, and the exact match the engine
reports around a card-shaped digit block.
-/

/-- The character at `i` exists and satisfies `p`. -/
def charIs (s : Str) (p : Nat → Bool) (i : Nat) : Bool := (charAt s i).any p

/-- Positions `i, i+1, ..., i+n-1` all hold characters satisfying `p`. -/
def runP (s : Str) (p : Nat → Bool) : Nat → Nat → Bool
  | _, 0 => true
  | i, n + 1 => charIs s p i && runP s p (i + 1) n

/-- Regexes whose character classes only accept digits (true of every branch
of the card alternation); such a regex can only consume digit characters. -/
inductive DigitOnly : Re → Prop
  | cls {p : Nat → Bool} (h : ∀ c, p c = true → isDigitC c = true) :
      DigitOnly (.cls p)
  | eps : DigitOnly .eps
  | seq {a b : Re} (ha : DigitOnly a) (hb : DigitOnly b) : DigitOnly (.seq a b)
  | alt {a b : Re} (ha : DigitOnly a) (hb : DigitOnly b) : DigitOnly (.alt a b)
  | reps {lo : Nat} {hi : Option Nat} {r : Re} (hr : DigitOnly r) :
      DigitOnly (.reps lo hi r)

/-- The five card branches together (`ccAlts` is the alternation inside the
`CREDIT_CARD` regex, so `reCreditCard = \b ccAlts \b`). -/
def ccAlts : Re := .alt ccVisa (.alt ccMC (.alt ccAmex (.alt ccDiners ccDiscover)))

/-!
The Luhn validator against the specification wording, and inversion lemmas
for the per-match constructors.
-/

/-- Helper: Luhn sum starting at distance `k` from the right end. -/
def specLuhnGo : Nat → List Nat → Nat
  | _, [] => 0
  | k, d :: rest =>
    (if k % 2 = 1 then specLuhnDouble d else d) + specLuhnGo (k + 1) rest

/-- The custom pattern of the `EMP-123456` scenario: category `EMPLOYEE_ID`,
regex `EMP-\d{6}` compiled with the `gi` flags. -/
def empPattern : CustomPattern :=
  ⟨"p1", "Employee ID", some (.seq (reStrCI "EMP") (.seq (reChar 45) (reN 6 reD))),
    "EMPLOYEE_ID", ActiveFlag.bool true⟩

/-- The field of the C8 scenario: a form element whose only set attribute is
`name="email"`, with no associated label. -/
def emailNameField : FieldAttrs :=
  ⟨str "", str "email", str "", str "", str "", str "", str "", str ""⟩

example : scanAll (rePlus (reChar 97)) (str "baaca") = [(1, 3), (4, 5)] := by decide
example : boundaryAt (str "ab cd") 2 = true := by decide
example : matchAt (reStrCI "abc") (str "xABc") 1 = some 4 := by decide
example : testRe (.seq .wb (reStr "mail")) (str "the mail x") = true := by decide

/-!
Engine lemmas: bounds on match ends, and soundness/completeness of the
`matchAll` scan.
-/

theorem greedyEnds_le {f : Nat → List Nat} {L : Nat}
    (hf : ∀ i e, e ∈ f i → e = i ∨ (i < e ∧ e ≤ L)) :
    ∀ fuel lo i e, e ∈ greedyEnds f fuel lo i → e = i ∨ (i < e ∧ e ≤ L) := by
  intro fuel
  induction fuel with
  | zero =>
    intro lo i e he
    simp only [greedyEnds] at he
    split at he <;> simp_all
  | succ fuel ih =>
    intro lo i e he
    simp only [greedyEnds, List.mem_append, List.mem_flatMap, List.mem_filter] at he
    rcases he with ⟨j, ⟨hj, hij⟩, he⟩ | he
    · have hij' : i < j := by simpa using hij
      have hjL : j ≤ L := by
        rcases hf i j hj with h | ⟨_, h⟩
        · omega
        · exact h
      rcases ih (lo - 1) j e he with h | ⟨h1, h2⟩
      · right; omega
      · right; omega
    · split at he <;> simp_all

theorem ends_le {s : Str} {r : Re} :
    ∀ i e, e ∈ endsRe s r i → e = i ∨ (i < e ∧ e ≤ s.length) := by
  induction r with
  | cls p =>
    intro i e he
    simp only [endsRe] at he
    split at he
    case isTrue h =>
      have hi : i < s.length := by
        cases hc : charAt s i with
        | none => rw [hc] at h; simp at h
        | some c =>
          have h2 := hc
          simp only [charAt] at h2
          exact (List.get?_eq_some.mp h2).1
      have h3 : e = i + 1 := List.mem_singleton.mp he
      right
      omega
    case isFalse h => simp at he
  | eps =>
    intro i e he
    simp only [endsRe, List.mem_singleton] at he
    exact Or.inl he
  | seq a b iha ihb =>
    intro i e he
    simp only [endsRe, List.mem_flatMap] at he
    obtain ⟨m, hm, he⟩ := he
    rcases iha i m hm with h | ⟨h1, h2⟩
    · rcases ihb m e he with h5 | ⟨h3, h4⟩
      · left; omega
      · right; omega
    · rcases ihb m e he with h5 | ⟨h3, h4⟩
      · right; omega
      · right; omega
  | alt a b iha ihb =>
    intro i e he
    simp only [endsRe, List.mem_append] at he
    rcases he with he | he
    · exact iha i e he
    · exact ihb i e he
  | reps lo hi r ihr =>
    intro i e he
    exact greedyEnds_le (fun i e h => ihr i e h) _ lo i e he
  | wb =>
    intro i e he
    simp only [endsRe] at he
    split at he <;> simp_all

theorem greedyEnds_min {f : Nat → List Nat} {m : Nat}
    (hf : ∀ i e, e ∈ f i → i + m ≤ e) :
    ∀ fuel lo i e, e ∈ greedyEnds f fuel lo i → i + lo * m ≤ e := by
  intro fuel
  induction fuel with
  | zero =>
    intro lo i e he
    simp only [greedyEnds] at he
    split at he <;> simp_all
  | succ fuel ih =>
    intro lo i e he
    simp only [greedyEnds, List.mem_append, List.mem_flatMap, List.mem_filter] at he
    rcases he with ⟨j, ⟨hj, _⟩, he⟩ | he
    · have h1 : i + m ≤ j := hf i j hj
      have h2 : j + (lo - 1) * m ≤ e := ih (lo - 1) j e he
      cases lo with
      | zero => simp at h2 ⊢; omega
      | succ k =>
        simp only [Nat.succ_sub_one] at h2
        calc i + (k + 1) * m = (i + m) + k * m := by ring
        _ ≤ j + k * m := by omega
        _ ≤ e := h2
    · split at he <;> simp_all
  

theorem ends_min {s : Str} {r : Re} :
    ∀ i e, e ∈ endsRe s r i → i + minLen r ≤ e := by
  induction r with
  | cls p =>
    intro i e he
    simp only [endsRe] at he
    split at he
    · have h3 : e = i + 1 := List.mem_singleton.mp he
      simp [minLen]; omega
    · simp at he
  | eps =>
    intro i e he
    simp only [endsRe, List.mem_singleton] at he
    simp [minLen]; omega
  | seq a b iha ihb =>
    intro i e he
    simp only [endsRe, List.mem_flatMap] at he
    obtain ⟨m, hm, he⟩ := he
    have h1 := iha i m hm
    have h2 := ihb m e he
    simp [minLen]; omega
  | alt a b iha ihb =>
    intro i e he
    simp only [endsRe, List.mem_append] at he
    rcases he with he | he
    · have := iha i e he
      simp [minLen]
      have h1 : min (minLen a) (minLen b) ≤ minLen a := Nat.min_le_left _ _
      omega
    · have := ihb i e he
      simp [minLen]
      have h1 : min (minLen a) (minLen b) ≤ minLen b := Nat.min_le_right _ _
      omega
  | reps lo hi r ihr =>
    intro i e he
    simp only [endsRe] at he
    have := greedyEnds_min (fun i e h => ihr i e h) _ lo i e he
    simpa [minLen] using this
  | wb =>
    intro i e he
    simp only [endsRe] at he
    split at he
    · have h3 : e = i := List.mem_singleton.mp he
      simp [minLen]; omega
    · simp at he

theorem matchAt_mem {r : Re} {s : Str} {i e : Nat} (h : matchAt r s i = some e) :
    e ∈ endsRe s r i := by
  simp only [matchAt] at h
  exact List.mem_of_mem_head? h

theorem searchFrom_eq_some {r : Re} {s : Str} :
    ∀ fuel start i e, searchFrom r s start fuel = some (i, e) →
      start ≤ i ∧ i ≤ s.length ∧ matchAt r s i = some e ∧
        ∀ q, start ≤ q → q < i → matchAt r s q = none := by
  intro fuel
  induction fuel with
  | zero => intro start i e h; simp [searchFrom] at h
  | succ fuel ih =>
    intro start i e h
    simp only [searchFrom] at h
    split at h
    · simp at h
    · rename_i hlen
      cases hm : matchAt r s start with
      | some e2 =>
        rw [hm] at h
        have h3 : (start, e2) = (i, e) := Option.some.inj h
        have h4 : start = i := congrArg Prod.fst h3
        have h5 : e2 = e := congrArg Prod.snd h3
        subst h4
        subst h5
        exact ⟨Nat.le_refl _, by omega, hm, fun q hq1 hq2 => (by omega : False).elim⟩
      | none =>
        rw [hm] at h
        have h2 := ih (start + 1) i e h
        refine ⟨by omega, h2.2.1, h2.2.2.1, ?_⟩
        intro q hq1 hq2
        rcases Nat.eq_or_lt_of_le hq1 with h3 | h3
        · rw [← h3]; exact hm
        · exact h2.2.2.2 q h3 hq2

theorem searchFrom_finds {r : Re} {s : Str} {i j : Nat}
    (hm : matchAt r s i = some j) (hi : i ≤ s.length) :
    ∀ fuel start, start ≤ i → s.length + 1 - start ≤ fuel →
      ∃ q e, searchFrom r s start fuel = some (q, e) ∧ q ≤ i := by
  intro fuel
  induction fuel with
  | zero => intro start h1 h2; omega
  | succ fuel ih =>
    intro start h1 h2
    simp only [searchFrom]
    split
    · omega
    · cases hq : matchAt r s start with
      | some e => exact ⟨start, e, rfl, h1⟩
      | none =>
        have hne : start ≠ i := fun h => by rw [h, hm] at hq; cases hq
        obtain ⟨q, e, h3, h4⟩ := ih (start + 1) (by omega) (by omega)
        exact ⟨q, e, h3, h4⟩

theorem scanAllGo_mem {r : Re} {s : Str} :
    ∀ fuel pos p, p ∈ scanAllGo r s pos fuel →
      pos ≤ p.1 ∧ p.1 ≤ s.length ∧ matchAt r s p.1 = some p.2 := by
  intro fuel
  induction fuel with
  | zero => intro pos p h; simp [scanAllGo] at h
  | succ fuel ih =>
    intro pos p h
    simp only [scanAllGo] at h
    cases hs : searchFrom r s pos (s.length + 1 - pos) with
    | none => rw [hs] at h; simp at h
    | some ie =>
      rw [hs] at h
      obtain ⟨i, e⟩ := ie
      have h2 := searchFrom_eq_some _ _ _ _ hs
      rcases List.mem_cons.mp h with h3 | h3
      · subst h3; exact ⟨h2.1, h2.2.1, h2.2.2.1⟩
      · have h4 := ih _ p h3
        refine ⟨?_, h4.2.1, h4.2.2⟩
        have h5 := h4.1
        split at h5 <;> omega

theorem scanAllGo_pairwise {r : Re} {s : Str} :
    ∀ fuel pos, (scanAllGo r s pos fuel).Pairwise (fun a b => a.1 < b.1) := by
  intro fuel
  induction fuel with
  | zero => intro pos; simp [scanAllGo]
  | succ fuel ih =>
    intro pos
    simp only [scanAllGo]
    cases hs : searchFrom r s pos (s.length + 1 - pos) with
    | none => simp
    | some ie =>
      obtain ⟨i, e⟩ := ie
      refine List.Pairwise.cons ?_ (ih _)
      intro b hb
      have h4 := scanAllGo_mem _ _ b hb
      have h5 := h4.1
      split at h5 <;> omega

theorem scanAll_mem {r : Re} {s : Str} {p : Nat × Nat} (h : p ∈ scanAll r s) :
    p.1 ≤ s.length ∧ matchAt r s p.1 = some p.2 :=
  ⟨(scanAllGo_mem _ _ p h).2.1, (scanAllGo_mem _ _ p h).2.2⟩

theorem scanAll_complete {r : Re} {s : Str} {i j : Nat}
    (hi : i ≤ s.length) (hm : matchAt r s i = some j)
    (hprev : ∀ q e, q < i → matchAt r s q = some e → q < e ∧ e ≤ i) :
    (i, j) ∈ scanAll r s := by
  have main : ∀ fuel pos, pos ≤ i → i - pos < fuel →
      (i, j) ∈ scanAllGo r s pos fuel := by
    intro fuel
    induction fuel with
    | zero => intro pos h1 h2; omega
    | succ fuel ih =>
      intro pos h1 h2
      simp only [scanAllGo]
      obtain ⟨q, e, h3, h4⟩ := searchFrom_finds hm hi (s.length + 1 - pos) pos h1 (by omega)
      rw [h3]
      have h5 := searchFrom_eq_some _ _ _ _ h3
      rcases Nat.eq_or_lt_of_le h4 with h6 | h6
      · subst h6
        have h7 : e = j := by
          have := h5.2.2.1
          rw [hm] at this
          exact (Option.some.inj this).symm
        subst h7
        exact List.mem_cons_self _ _
      · have h8 := hprev q e h6 h5.2.2.1
        refine List.mem_cons_of_mem _ (ih _ ?_ ?_)
        · have : (if q < e then e else q + 1) = e := if_pos h8.1
          rw [this]; exact h8.2
        · have : (if q < e then e else q + 1) = e := if_pos h8.1
          rw [this]
          have h9 := h5.1
          omega
  exact main (s.length + 2) 0 (by omega) (by omega)

theorem runP_append {s : Str} {p : Nat → Bool} :
    ∀ a i b, runP s p i a = true → runP s p (i + a) b = true →
      runP s p i (a + b) = true := by
  intro a
  induction a with
  | zero => intro i b _ h2; simpa using h2
  | succ a ih =>
    intro i b h1 h2
    have hg : a + 1 + b = (a + b) + 1 := by omega
    rw [hg]
    simp only [runP, Bool.and_eq_true] at h1 ⊢
    refine ⟨h1.1, ?_⟩
    have h3 : i + (a + 1) = (i + 1) + a := by omega
    rw [h3] at h2
    exact ih (i + 1) b h1.2 h2

theorem runP_mem {s : Str} {p : Nat → Bool} :
    ∀ n i, runP s p i n = true → ∀ k, k < n → charIs s p (i + k) = true := by
  intro n
  induction n with
  | zero => intro i _ k hk; omega
  | succ n ih =>
    intro i h k hk
    simp only [runP, Bool.and_eq_true] at h
    cases k with
    | zero => simpa using h.1
    | succ k =>
      have := ih (i + 1) h.2 k (by omega)
      have h2 : i + (k + 1) = (i + 1) + k := by omega
      rw [h2]
      exact this

theorem runP_of_mem {s : Str} {p : Nat → Bool} :
    ∀ n i, (∀ k, k < n → charIs s p (i + k) = true) → runP s p i n = true := by
  intro n
  induction n with
  | zero => intro i _; rfl
  | succ n ih =>
    intro i h
    simp only [runP, Bool.and_eq_true]
    refine ⟨by simpa using h 0 (by omega), ih (i + 1) ?_⟩
    intro k hk
    have h2 : (i + 1) + k = i + (k + 1) := by omega
    rw [h2]
    exact h (k + 1) (by omega)

theorem charIs_mono {s : Str} {p q : Nat → Bool}
    (h : ∀ c, p c = true → q c = true) {i : Nat} (hc : charIs s p i = true) :
    charIs s q i = true := by
  simp only [charIs] at hc ⊢
  cases hch : charAt s i with
  | none => rw [hch] at hc; simp [Option.any] at hc
  | some c =>
    rw [hch] at hc
    simp only [Option.any] at hc ⊢
    exact h c hc

theorem runP_mono {s : Str} {p q : Nat → Bool}
    (h : ∀ c, p c = true → q c = true) :
    ∀ n i, runP s p i n = true → runP s q i n = true := by
  intro n i hn
  exact runP_of_mem n i (fun k hk => charIs_mono h (runP_mem n i hn k hk))

theorem ends_cls {s : Str} {p : Nat → Bool} {i : Nat} :
    endsRe s (.cls p) i = if charIs s p i then [i + 1] else [] := rfl

theorem ends_seq {s : Str} {a b : Re} {i : Nat} :
    endsRe s (.seq a b) i = (endsRe s a i).flatMap (endsRe s b) := rfl

theorem ends_alt {s : Str} {a b : Re} {i : Nat} :
    endsRe s (.alt a b) i = endsRe s a i ++ endsRe s b i := rfl

theorem ends_wb {s : Str} {i : Nat} :
    endsRe s .wb i = if boundaryAt s i then [i] else [] := rfl

theorem ends_reN_cls {s : Str} {p : Nat → Bool} :
    ∀ n i, endsRe s (reN n (.cls p)) i = if runP s p i n then [i + n] else [] := by
  intro n
  induction n with
  | zero => intro i; simp [reN, endsRe, greedyEnds, runP]
  | succ n ih =>
    intro i
    have step : endsRe s (reN (n + 1) (.cls p)) i =
        ((endsRe s (.cls p) i).filter (fun j => decide (i < j))).flatMap
          (fun j => greedyEnds (endsRe s (.cls p)) n n j) := by
      show greedyEnds (endsRe s (.cls p)) (n + 1) (n + 1) i = _
      simp only [greedyEnds, Nat.add_sub_cancel]
      have h0 : (if n + 1 = 0 then [i] else ([] : List Nat)) = [] := by simp
      rw [h0, List.append_nil]
    by_cases hc : charIs s p i = true
    · rw [step, ends_cls, if_pos hc]
      have hfil : List.filter (fun j => decide (i < j)) [i + 1] = [i + 1] := by simp
      rw [hfil]
      simp only [List.flatMap_cons, List.flatMap_nil, List.append_nil]
      have ih3 : greedyEnds (endsRe s (.cls p)) n n (i + 1) =
          if runP s p (i + 1) n then [i + 1 + n] else [] := ih (i + 1)
      rw [ih3]
      have hrp : runP s p i (n + 1) = runP s p (i + 1) n := by simp [runP, hc]
      rw [hrp]
      split
      · have : i + 1 + n = i + (n + 1) := by omega
        rw [this]
      · rfl
    · rw [step, ends_cls, if_neg hc]
      have hc2 : charIs s p i = false := by simpa using hc
      simp [runP, hc2]

theorem ends_opt_reN_cls {s : Str} {p : Nat → Bool} {n i : Nat} (hn : 0 < n) :
    endsRe s (reOpt (reN n (.cls p))) i =
      (if runP s p i n then [i + n] else []) ++ [i] := by
  show greedyEnds (endsRe s (reN n (.cls p))) 1 0 i = _
  simp only [greedyEnds, if_pos rfl]
  rw [ends_reN_cls]
  by_cases hr : runP s p i n = true
  · rw [if_pos hr]
    have hfil : List.filter (fun j => decide (i < j)) [i + n] = [i + n] := by
      simp; omega
    rw [hfil]
    simp [greedyEnds]
  · rw [if_neg hr]
    simp

theorem greedy_digit_sound {s : Str} {f : Nat → List Nat}
    (hf : ∀ i e, e ∈ f i → runP s isDigitC i (e - i) = true ∧ i ≤ e) :
    ∀ fuel lo i e, e ∈ greedyEnds f fuel lo i →
      runP s isDigitC i (e - i) = true ∧ i ≤ e := by
  intro fuel
  induction fuel with
  | zero =>
    intro lo i e he
    simp only [greedyEnds] at he
    split at he <;> simp_all [runP]
  | succ fuel ih =>
    intro lo i e he
    simp only [greedyEnds, List.mem_append, List.mem_flatMap, List.mem_filter] at he
    rcases he with ⟨j, ⟨hj, hij⟩, he⟩ | he
    · have hij' : i < j := by simpa using hij
      obtain ⟨h1, h2⟩ := hf i j hj
      obtain ⟨h3, h4⟩ := ih (lo - 1) j e he
      have h5 := runP_append (j - i) i (e - j) h1 (by
        have : i + (j - i) = j := by omega
        rw [this]
        exact h3)
      have h6 : (j - i) + (e - j) = e - i := by omega
      rw [h6] at h5
      exact ⟨h5, by omega⟩
    · split at he <;> simp_all [runP]

theorem digit_sound {s : Str} {r : Re} (hr : DigitOnly r) :
    ∀ i e, e ∈ endsRe s r i → runP s isDigitC i (e - i) = true ∧ i ≤ e := by
  induction hr with
  | cls h =>
    intro i e he
    rw [ends_cls] at he
    split at he
    · rename_i hch
      have h2 : e = i + 1 := List.mem_singleton.mp he
      subst h2
      refine ⟨?_, by omega⟩
      have h3 : i + 1 - i = 1 := by omega
      rw [h3]
      simp only [runP, Bool.and_eq_true]
      exact ⟨charIs_mono h hch, trivial⟩
    · simp at he
  | eps =>
    intro i e he
    have h2 : e = i := List.mem_singleton.mp he
    subst h2
    simp [runP]
  | seq ha hb iha ihb =>
    intro i e he
    rw [ends_seq] at he
    simp only [List.mem_flatMap] at he
    obtain ⟨m, hm, he⟩ := he
    obtain ⟨h1, h2⟩ := iha i m hm
    obtain ⟨h3, h4⟩ := ihb m e he
    have h5 := runP_append (m - i) i (e - m) h1 (by
      have : i + (m - i) = m := by omega
      rw [this]
      exact h3)
    have h6 : (m - i) + (e - m) = e - i := by omega
    rw [h6] at h5
    exact ⟨h5, by omega⟩
  | alt ha hb iha ihb =>
    intro i e he
    rw [ends_alt] at he
    rcases List.mem_append.mp he with he | he
    · exact iha i e he
    · exact ihb i e he
  | reps hr ihr =>
    intro i e he
    exact greedy_digit_sound (fun i e h => ihr i e h) _ _ i e he

theorem digitOnly_reChar {c : Nat} (h : isDigitC c = true) : DigitOnly (reChar c) := by
  refine DigitOnly.cls ?_
  intro x hx
  have : x = c := by simpa using hx
  rw [this]
  exact h

theorem digitOnly_reD : DigitOnly reD := DigitOnly.cls (fun _ h => h)

theorem digitOnly_ccVisa : DigitOnly ccVisa := by
  refine DigitOnly.seq (digitOnly_reChar (by decide)) (DigitOnly.seq ?_ ?_)
  · exact DigitOnly.reps digitOnly_reD
  · exact DigitOnly.reps (DigitOnly.reps digitOnly_reD)

theorem digitOnly_ccMC : DigitOnly ccMC := by
  refine DigitOnly.seq (digitOnly_reChar (by decide))
    (DigitOnly.seq (DigitOnly.cls ?_) (DigitOnly.reps digitOnly_reD))
  intro c hc
  simp only [Bool.and_eq_true, decide_eq_true_eq] at hc
  simp only [isDigitC, Bool.and_eq_true, decide_eq_true_eq]
  omega

theorem digitOnly_ccAmex : DigitOnly ccAmex := by
  refine DigitOnly.seq (digitOnly_reChar (by decide))
    (DigitOnly.seq (DigitOnly.cls ?_) (DigitOnly.reps digitOnly_reD))
  intro c hc
  simp only [Bool.or_eq_true, beq_iff_eq] at hc
  rcases hc with h | h <;> rw [h] <;> decide

theorem digitOnly_ccDiners : DigitOnly ccDiners :=
  DigitOnly.seq (digitOnly_reChar (by decide)) (DigitOnly.reps digitOnly_reD)

theorem digitOnly_ccDiscover : DigitOnly ccDiscover := by
  refine DigitOnly.seq (digitOnly_reChar (by decide)) (DigitOnly.seq (DigitOnly.alt ?_ ?_)
    (DigitOnly.reps digitOnly_reD))
  · show DigitOnly (reStr "011")
    have h1 : reStr "011" =
        .seq (reChar 48) (.seq (reChar 49) (.seq (reChar 49) .eps)) := rfl
    rw [h1]
    exact DigitOnly.seq (digitOnly_reChar (by decide))
      (DigitOnly.seq (digitOnly_reChar (by decide))
        (DigitOnly.seq (digitOnly_reChar (by decide)) DigitOnly.eps))
  · exact DigitOnly.seq (digitOnly_reChar (by decide)) (DigitOnly.reps digitOnly_reD)

theorem reCreditCard_eq : reCreditCard = .seq .wb (.seq ccAlts .wb) := rfl

theorem digitOnly_ccAlts : DigitOnly ccAlts :=
  DigitOnly.alt digitOnly_ccVisa (DigitOnly.alt digitOnly_ccMC
    (DigitOnly.alt digitOnly_ccAmex (DigitOnly.alt digitOnly_ccDiners
      digitOnly_ccDiscover)))

theorem mem_ends_seq {s : Str} {a b : Re} {i m e : Nat}
    (hm : m ∈ endsRe s a i) (he : e ∈ endsRe s b m) :
    e ∈ endsRe s (.seq a b) i := by
  rw [ends_seq]
  exact List.mem_flatMap.mpr ⟨m, hm, he⟩

theorem mem_ends_cls {s : Str} {p : Nat → Bool} {i : Nat}
    (h : charIs s p i = true) : (i + 1) ∈ endsRe s (.cls p) i := by
  rw [ends_cls, if_pos h]
  exact List.mem_singleton.mpr rfl

theorem mem_ends_reN {s : Str} {p : Nat → Bool} {n i : Nat}
    (h : runP s p i n = true) : (i + n) ∈ endsRe s (reN n (.cls p)) i := by
  rw [ends_reN_cls, if_pos h]
  exact List.mem_singleton.mpr rfl

theorem mem_ends_altL {s : Str} {a b : Re} {i e : Nat}
    (h : e ∈ endsRe s a i) : e ∈ endsRe s (.alt a b) i := by
  rw [ends_alt]
  exact List.mem_append_left _ h

theorem mem_ends_altR {s : Str} {a b : Re} {i e : Nat}
    (h : e ∈ endsRe s b i) : e ∈ endsRe s (.alt a b) i := by
  rw [ends_alt]
  exact List.mem_append_right _ h

theorem mem_ends_optR {s : Str} {p : Nat → Bool} {n i : Nat} (hn : 0 < n) :
    i ∈ endsRe s (reOpt (reN n (.cls p))) i := by
  rw [ends_opt_reN_cls hn]
  exact List.mem_append_right _ (List.mem_singleton.mpr rfl)

theorem mem_ends_optL {s : Str} {p : Nat → Bool} {n i : Nat} (hn : 0 < n)
    (h : runP s p i n = true) : (i + n) ∈ endsRe s (reOpt (reN n (.cls p))) i := by
  rw [ends_opt_reN_cls hn, if_pos h]
  exact List.mem_append_left _ (List.mem_singleton.mpr rfl)

theorem charIs_of_get {s t : Str} {i : Nat}
    (hchar : ∀ k, k < t.length → charAt s (i + k) = t.get? k)
    {k c : Nat} (hkl : k < t.length) (hk : t.get? k = some c)
    {p : Nat → Bool} (hp : p c = true) : charIs s p (i + k) = true := by
  simp only [charIs, hchar k hkl, hk, Option.any]
  exact hp

theorem runP_block {s t : Str} {i : Nat}
    (hchar : ∀ k, k < t.length → charAt s (i + k) = t.get? k)
    (hall : t.all isDigitC = true) :
    ∀ a b, a + b ≤ t.length → runP s isDigitC (i + a) b = true := by
  intro a b hab
  refine runP_of_mem b (i + a) ?_
  intro k hk
  have hkl : a + k < t.length := by omega
  have hex : ∃ c, t.get? (a + k) = some c := by
    rw [List.get?_eq_get hkl]
    exact ⟨_, rfl⟩
  obtain ⟨c, hc⟩ := hex
  have hcd : isDigitC c = true := List.all_eq_true.mp hall c (List.get?_mem hc)
  have h2 : i + a + k = i + (a + k) := by omega
  rw [h2]
  exact charIs_of_get hchar hkl hc hcd

theorem mem_ends_eps {s : Str} {i : Nat} : i ∈ endsRe s .eps i :=
  List.mem_singleton.mpr rfl

theorem opt_any_true {o : Option Nat} {p : Nat → Bool} (h : o.any p = true) :
    ∃ c, o = some c ∧ p c = true := by
  cases o with
  | none => simp [Option.any] at h
  | some c => exact ⟨c, rfl, by simpa [Option.any] using h⟩

theorem reStr011_eq : reStr "011" =
    .seq (reChar 48) (.seq (reChar 49) (.seq (reChar 49) .eps)) := rfl

theorem ccAlts_complete {s t : Str} {i : Nat}
    (hchar : ∀ k, k < t.length → charAt s (i + k) = t.get? k)
    (hshape : specCardShape t = true) :
    (i + t.length) ∈ endsRe s ccAlts i := by
  have hsh := hshape
  simp only [specCardShape, Bool.and_eq_true] at hsh
  obtain ⟨hall, hbr⟩ := hsh
  have hrun := runP_block hchar hall
  simp only [Bool.or_eq_true] at hbr
  rcases hbr with ((((h1 | h2) | h3) | h4) | h5)
  · -- Visa: 4, then 12 digits then optionally 3 more
    simp only [Bool.and_eq_true, beq_iff_eq, Bool.or_eq_true] at h1
    obtain ⟨hh, hlen⟩ := h1
    have h0 : t.get? 0 = some 52 := by rw [List.get?_zero]; exact hh
    have hlen13 : 13 ≤ t.length := by omega
    have hc4 : charIs s (fun x => x == 52) i = true := by
      have := charIs_of_get hchar (k := 0) (by omega) h0 (p := fun x => x == 52)
        (by decide)
      simpa using this
    have m1 : (i + 1) ∈ endsRe s (.cls (fun x => x == 52)) i := mem_ends_cls hc4
    have hr12 : runP s isDigitC (i + 1) 12 = true := hrun 1 12 (by omega)
    have m2 : (i + 13) ∈ endsRe s (reN 12 (.cls isDigitC)) (i + 1) := by
      have := mem_ends_reN hr12
      have e1 : i + 1 + 12 = i + 13 := by omega
      rw [e1] at this
      exact this
    rcases hlen with hlen | hlen
    · have m3 : (i + t.length) ∈ endsRe s (reOpt (reN 3 (.cls isDigitC))) (i + 13) := by
        rw [hlen]
        exact mem_ends_optR (by omega)
      exact mem_ends_altL (mem_ends_seq m1 (mem_ends_seq m2 m3))
    · have hr3 : runP s isDigitC (i + 13) 3 = true := hrun 13 3 (by omega)
      have m3 : (i + t.length) ∈ endsRe s (reOpt (reN 3 (.cls isDigitC))) (i + 13) := by
        have := mem_ends_optL (by omega) hr3
        have e1 : i + 13 + 3 = i + t.length := by omega
        rw [e1] at this
        exact this
      exact mem_ends_altL (mem_ends_seq m1 (mem_ends_seq m2 m3))
  · -- Mastercard: 5, then 1-5, then 14 digits
    simp only [Bool.and_eq_true, beq_iff_eq] at h2
    obtain ⟨⟨hh, hany⟩, hlen⟩ := h2
    have h0 : t.get? 0 = some 53 := by rw [List.get?_zero]; exact hh
    obtain ⟨c1, hg1, hp1⟩ := opt_any_true hany
    have m1 : (i + 1) ∈ endsRe s (.cls (fun x => x == 53)) i := by
      refine mem_ends_cls ?_
      have := charIs_of_get hchar (k := 0) (by omega) h0 (p := fun x => x == 53)
        (by decide)
      simpa using this
    have m2 : (i + 2) ∈ endsRe s (.cls (fun c => 49 ≤ c && c ≤ 53)) (i + 1) := by
      have := mem_ends_cls (charIs_of_get hchar (k := 1) (by omega) hg1
        (p := fun c => 49 ≤ c && c ≤ 53) hp1)
      have e1 : i + 1 + 1 = i + 2 := by omega
      rw [e1] at this
      exact this
    have hr14 : runP s isDigitC (i + 2) 14 = true := hrun 2 14 (by omega)
    have m3 : (i + t.length) ∈ endsRe s (reN 14 (.cls isDigitC)) (i + 2) := by
      have := mem_ends_reN hr14
      have e1 : i + 2 + 14 = i + t.length := by omega
      rw [e1] at this
      exact this
    exact mem_ends_altR (mem_ends_altL (mem_ends_seq m1 (mem_ends_seq m2 m3)))
  · -- Amex: 3, then 4 or 7, then 13 digits
    simp only [Bool.and_eq_true, beq_iff_eq] at h3
    obtain ⟨⟨hh, hany⟩, hlen⟩ := h3
    have h0 : t.get? 0 = some 51 := by rw [List.get?_zero]; exact hh
    obtain ⟨c1, hg1, hp1⟩ := opt_any_true hany
    have m1 : (i + 1) ∈ endsRe s (.cls (fun x => x == 51)) i := by
      refine mem_ends_cls ?_
      have := charIs_of_get hchar (k := 0) (by omega) h0 (p := fun x => x == 51)
        (by decide)
      simpa using this
    have m2 : (i + 2) ∈ endsRe s (.cls (fun c => c == 52 || c == 55)) (i + 1) := by
      have := mem_ends_cls (charIs_of_get hchar (k := 1) (by omega) hg1
        (p := fun c => c == 52 || c == 55) hp1)
      have e1 : i + 1 + 1 = i + 2 := by omega
      rw [e1] at this
      exact this
    have hr13 : runP s isDigitC (i + 2) 13 = true := hrun 2 13 (by omega)
    have m3 : (i + t.length) ∈ endsRe s (reN 13 (.cls isDigitC)) (i + 2) := by
      have := mem_ends_reN hr13
      have e1 : i + 2 + 13 = i + t.length := by omega
      rw [e1] at this
      exact this
    exact mem_ends_altR (mem_ends_altR (mem_ends_altL
      (mem_ends_seq m1 (mem_ends_seq m2 m3))))
  · -- bare 3 plus 13 digits
    simp only [Bool.and_eq_true, beq_iff_eq] at h4
    obtain ⟨hh, hlen⟩ := h4
    have h0 : t.get? 0 = some 51 := by rw [List.get?_zero]; exact hh
    have m1 : (i + 1) ∈ endsRe s (.cls (fun x => x == 51)) i := by
      refine mem_ends_cls ?_
      have := charIs_of_get hchar (k := 0) (by omega) h0 (p := fun x => x == 51)
        (by decide)
      simpa using this
    have hr13 : runP s isDigitC (i + 1) 13 = true := hrun 1 13 (by omega)
    have m2 : (i + t.length) ∈ endsRe s (reN 13 (.cls isDigitC)) (i + 1) := by
      have := mem_ends_reN hr13
      have e1 : i + 1 + 13 = i + t.length := by omega
      rw [e1] at this
      exact this
    exact mem_ends_altR (mem_ends_altR (mem_ends_altR (mem_ends_altL
      (mem_ends_seq m1 m2))))
  · -- Discover: 6, then 011 or 5 with two digits, then 12 digits
    simp only [Bool.and_eq_true, beq_iff_eq, Bool.or_eq_true] at h5
    obtain ⟨⟨hh, hsub⟩, hlen⟩ := h5
    have h0 : t.get? 0 = some 54 := by rw [List.get?_zero]; exact hh
    have m1 : (i + 1) ∈ endsRe s (.cls (fun x => x == 54)) i := by
      refine mem_ends_cls ?_
      have := charIs_of_get hchar (k := 0) (by omega) h0 (p := fun x => x == 54)
        (by decide)
      simpa using this
    have malt : (i + 4) ∈
        endsRe s (.alt (reStr "011") (.seq (reChar 53) (reN 2 (.cls isDigitC)))) (i + 1) := by
      rcases hsub with ⟨⟨hg1, hg2⟩, hg3⟩ | ⟨⟨hg1, hg2⟩, hg3⟩
      · refine mem_ends_altL ?_
        rw [reStr011_eq]
        have c1 : (i + 2) ∈ endsRe s (.cls (fun x => x == 48)) (i + 1) := by
          have := mem_ends_cls (charIs_of_get hchar (k := 1) (by omega) hg1
            (p := fun x => x == 48) (by decide))
          have e1 : i + 1 + 1 = i + 2 := by omega
          rw [e1] at this
          exact this
        have c2 : (i + 3) ∈ endsRe s (.cls (fun x => x == 49)) (i + 2) := by
          have := mem_ends_cls (charIs_of_get hchar (k := 2) (by omega) hg2
            (p := fun x => x == 49) (by decide))
          have e1 : i + 2 + 1 = i + 3 := by omega
          rw [e1] at this
          exact this
        have c3 : (i + 4) ∈ endsRe s (.cls (fun x => x == 49)) (i + 3) := by
          have := mem_ends_cls (charIs_of_get hchar (k := 3) (by omega) hg3
            (p := fun x => x == 49) (by decide))
          have e1 : i + 3 + 1 = i + 4 := by omega
          rw [e1] at this
          exact this
        exact mem_ends_seq c1 (mem_ends_seq c2 (mem_ends_seq c3 mem_ends_eps))
      · refine mem_ends_altR ?_
        have c1 : (i + 2) ∈ endsRe s (.cls (fun x => x == 53)) (i + 1) := by
          have := mem_ends_cls (charIs_of_get hchar (k := 1) (by omega) hg1
            (p := fun x => x == 53) (by decide))
          have e1 : i + 1 + 1 = i + 2 := by omega
          rw [e1] at this
          exact this
        have hr2 : runP s isDigitC (i + 2) 2 = true := hrun 2 2 (by omega)
        have c2 : (i + 4) ∈ endsRe s (reN 2 (.cls isDigitC)) (i + 2) := by
          have := mem_ends_reN hr2
          have e1 : i + 2 + 2 = i + 4 := by omega
          rw [e1] at this
          exact this
        exact mem_ends_seq c1 c2
    have hr12 : runP s isDigitC (i + 4) 12 = true := hrun 4 12 (by omega)
    have m3 : (i + t.length) ∈ endsRe s (reN 12 (.cls isDigitC)) (i + 4) := by
      have := mem_ends_reN hr12
      have e1 : i + 4 + 12 = i + t.length := by omega
      rw [e1] at this
      exact this
    exact mem_ends_altR (mem_ends_altR (mem_ends_altR (mem_ends_altR
      (mem_ends_seq m1 (mem_ends_seq malt m3)))))

theorem isWordC_of_digit {c : Nat} (h : isDigitC c = true) : isWordC c = true := by
  simp only [isWordC, h, Bool.true_or]

theorem specCardShape_len {t : Str} (h : specCardShape t = true) :
    13 ≤ t.length ∧ t.length ≤ 16 := by
  simp only [specCardShape, Bool.and_eq_true, Bool.or_eq_true] at h
  obtain ⟨-, hbr⟩ := h
  rcases hbr with ((((h1 | h1) | h1) | h1) | h1) <;>
    simp only [Bool.and_eq_true, beq_iff_eq, Bool.or_eq_true] at h1 <;> omega

theorem head?_all_eq {l : List Nat} {j : Nat} (hne : j ∈ l)
    (hall : ∀ x ∈ l, x = j) : l.head? = some j := by
  cases l with
  | nil => simp at hne
  | cons a rest =>
    simp only [List.head?_cons]
    rw [hall a (List.mem_cons_self a rest)]

/-- Soundness of a `CREDIT_CARD` match: any end the engine can reach from `i`
sits on word boundaries, covers only digits, and is at least 13 long. -/
theorem cc_ends_props {s : Str} {i e : Nat} (h : e ∈ endsRe s reCreditCard i) :
    boundaryAt s i = true ∧ boundaryAt s e = true ∧
      runP s isDigitC i (e - i) = true ∧ i + 13 ≤ e := by
  rw [reCreditCard_eq, ends_seq] at h
  simp only [List.mem_flatMap] at h
  obtain ⟨m, hm1, hm2⟩ := h
  rw [ends_wb] at hm1
  by_cases hb : boundaryAt s i = true
  · rw [if_pos hb] at hm1
    have hmi : m = i := List.mem_singleton.mp hm1
    subst hmi
    rw [ends_seq] at hm2
    simp only [List.mem_flatMap] at hm2
    obtain ⟨m2, hm3, hm4⟩ := hm2
    rw [ends_wb] at hm4
    by_cases hb2 : boundaryAt s m2 = true
    · rw [if_pos hb2] at hm4
      have hem : e = m2 := List.mem_singleton.mp hm4
      subst hem
      obtain ⟨hrun, -⟩ := digit_sound digitOnly_ccAlts m e hm3
      have hmin := ends_min m e hm3
      have hml : minLen ccAlts = 13 := by decide
      rw [hml] at hmin
      exact ⟨hb, hb2, hrun, hmin⟩
    · rw [if_neg hb2] at hm4
      simp at hm4
  · rw [if_neg hb] at hm1
    simp at hm1

/-- The engine reports exactly the card-shaped block: if `s` decomposes as
`pre ++ t ++ post` with `t` a card-shaped, and the neighbouring characters
(when present) are not word characters, then the `CREDIT_CARD` regex matches
at `pre.length` and ends exactly at `pre.length + t.length`. -/
theorem matchAt_cc {s pre t post : Str} (hs : s = pre ++ (t ++ post))
    (hshape : specCardShape t = true)
    (hpre : pre = [] ∨ ∃ c, pre.getLast? = some c ∧ isWordC c = false)
    (hpost : post = [] ∨ ∃ c, post.head? = some c ∧ isWordC c = false) :
    matchAt reCreditCard s pre.length = some (pre.length + t.length) := by
  have hall : t.all isDigitC = true := by
    simp only [specCardShape, Bool.and_eq_true] at hshape
    exact hshape.1
  obtain ⟨hlen13, hlen16⟩ := specCardShape_len hshape
  have hchar : ∀ k, k < t.length → charAt s (pre.length + k) = t.get? k := by
    intro k hk
    rw [hs]
    simp only [charAt]
    rw [List.get?_append_right (by omega)]
    have e1 : pre.length + k - pre.length = k := by omega
    rw [e1, List.get?_append hk]
  have hcharPost : charAt s (pre.length + t.length) = post.head? := by
    rw [hs]
    simp only [charAt]
    rw [List.get?_append_right (by omega)]
    have e1 : pre.length + t.length - pre.length = t.length := by omega
    rw [e1, List.get?_append_right (by omega)]
    have e2 : t.length - t.length = 0 := by omega
    rw [e2, List.get?_zero]
  have hdigAt : ∀ k, k < t.length → ∃ c, charAt s (pre.length + k) = some c ∧
      isDigitC c = true := by
    intro k hk
    have h1 := hchar k hk
    have hex : ∃ c, t.get? k = some c := by
      rw [List.get?_eq_get hk]
      exact ⟨_, rfl⟩
    obtain ⟨c, hc⟩ := hex
    exact ⟨c, by rw [h1, hc], List.all_eq_true.mp hall c (List.get?_mem hc)⟩
  set i := pre.length with hidef
  set j := pre.length + t.length with hjdef
  have hwAt : ∀ k, k < t.length → isWordAt s (i + k) = true := by
    intro k hk
    obtain ⟨c, hc, hcd⟩ := hdigAt k hk
    simp only [isWordAt, hc]
    exact isWordC_of_digit hcd
  have hw0 : isWordAt s i = true := by
    have := hwAt 0 (by omega)
    simpa using this
  have hwLast : isWordAt s (j - 1) = true := by
    have := hwAt (t.length - 1) (by omega)
    have e1 : i + (t.length - 1) = j - 1 := by omega
    rw [e1] at this
    exact this
  have hwPost : isWordAt s j = false := by
    simp only [isWordAt, hcharPost]
    rcases hpost with hp | ⟨c, hc, hcw⟩
    · rw [hp]; rfl
    · rw [hc]; exact hcw
  have hbi : boundaryAt s i = true := by
    simp only [boundaryAt]
    rcases hpre with hp | ⟨c, hc, hcw⟩
    · have e1 : i = 0 := by rw [hidef, hp]; rfl
      rw [if_pos e1, hw0]
      rfl
    · have hne : pre ≠ [] := by
        intro h
        rw [h] at hc
        simp at hc
      have e1 : i ≠ 0 := by
        intro h
        have : pre.length = 0 := h
        exact hne (List.length_eq_zero.mp this)
      rw [if_neg e1]
      have hprev : isWordAt s (i - 1) = false := by
        simp only [isWordAt, charAt]
        rw [hs]
        have e2 : i - 1 < pre.length := by
          have : 0 < pre.length := List.length_pos.mpr hne
          omega
        rw [List.get?_append e2]
        have e3 : pre.get? (pre.length - 1) = some c := by
          rw [← List.getLast?_eq_get? pre]
          exact hc
        have e4 : i - 1 = pre.length - 1 := rfl
        rw [e4, e3]
        exact hcw
      rw [hprev, hw0]
      rfl
  have hbj : boundaryAt s j = true := by
    simp only [boundaryAt]
    have e1 : j ≠ 0 := by omega
    rw [if_neg e1, hwLast, hwPost]
    rfl
  have hcomp : j ∈ endsRe s ccAlts i := ccAlts_complete hchar hshape
  have huniq : ∀ e, e ∈ endsRe s ccAlts i → boundaryAt s e = true → e = j := by
    intro e he hbe
    obtain ⟨hrun, -⟩ := digit_sound digitOnly_ccAlts i e he
    have hmin := ends_min i e he
    have hml : minLen ccAlts = 13 := by decide
    rw [hml] at hmin
    by_contra hne
    rcases Nat.lt_or_ge e j with hlt | hge
    · -- a shorter end sits inside the digit block: no boundary there
      have hk1 : e - i < t.length := by omega
      have hk2 : e - 1 - i < t.length := by omega
      obtain ⟨c1, hc1, hd1⟩ := hdigAt (e - i) hk1
      obtain ⟨c2, hc2, hd2⟩ := hdigAt (e - 1 - i) hk2
      have e2 : i + (e - i) = e := by omega
      have e3 : i + (e - 1 - i) = e - 1 := by omega
      rw [e2] at hc1
      rw [e3] at hc2
      have hwe : isWordAt s e = true := by
        simp only [isWordAt, hc1]
        exact isWordC_of_digit hd1
      have hwe1 : isWordAt s (e - 1) = true := by
        simp only [isWordAt, hc2]
        exact isWordC_of_digit hd2
      have he0 : e ≠ 0 := by omega
      simp only [boundaryAt, if_neg he0, hwe, hwe1] at hbe
      simp at hbe
    · -- a longer end would need a digit right after the block
      have hgt : j < e := by omega
      have hcj : charIs s isDigitC (i + (j - i)) = true :=
        runP_mem (e - i) i hrun (j - i) (by omega)
      have e2 : i + (j - i) = j := by omega
      rw [e2] at hcj
      simp only [charIs, hcharPost] at hcj
      rcases hpost with hp | ⟨c, hc, hcw⟩
      · rw [hp] at hcj
        simp [Option.any] at hcj
      · rw [hc] at hcj
        simp only [Option.any] at hcj
        have := isWordC_of_digit hcj
        rw [this] at hcw
        cases hcw
  have hEnds : endsRe s reCreditCard i =
      (endsRe s ccAlts i).flatMap (fun m => if boundaryAt s m then [m] else []) := by
    rw [reCreditCard_eq, ends_seq, ends_wb, if_pos hbi]
    simp only [List.flatMap_cons, List.flatMap_nil, List.append_nil]
    rw [ends_seq]
    rfl
  rw [matchAt, hEnds]
  refine head?_all_eq ?_ ?_
  · refine List.mem_flatMap.mpr ⟨j, hcomp, ?_⟩
    rw [if_pos hbj]
    exact List.mem_singleton.mpr rfl
  · intro x hx
    obtain ⟨m, hm1, hm2⟩ := List.mem_flatMap.mp hx
    by_cases hbm : boundaryAt s m = true
    · rw [if_pos hbm] at hm2
      have : x = m := List.mem_singleton.mp hm2
      subst this
      exact huniq x hm1 hbm
    · rw [if_neg hbm] at hm2
      simp at hm2

/-- The full scan finds the card block: no earlier match can reach past the
block's start, because everything a card match covers is digits while the
character before the block is not a word character. -/
theorem scan_cc_complete {s pre t post : Str} (hs : s = pre ++ (t ++ post))
    (hshape : specCardShape t = true)
    (hpre : pre = [] ∨ ∃ c, pre.getLast? = some c ∧ isWordC c = false)
    (hpost : post = [] ∨ ∃ c, post.head? = some c ∧ isWordC c = false) :
    (pre.length, pre.length + t.length) ∈ scanAll reCreditCard s := by
  have hm := matchAt_cc hs hshape hpre hpost
  have hi : pre.length ≤ s.length := by
    rw [hs]
    simp [List.length_append]
  refine scanAll_complete hi hm ?_
  intro q e hq hqe
  obtain ⟨-, -, hrun, hmin⟩ := cc_ends_props (matchAt_mem hqe)
  refine ⟨by omega, ?_⟩
  by_contra hgt
  push_neg at hgt
  -- the match from q would cover position pre.length - 1, a digit then;
  -- but that position holds the last character of pre, not a word character
  have hpos : 0 < pre.length := by omega
  have hne : pre ≠ [] := fun h => by rw [h] at hpos; simp at hpos
  rcases hpre with hp | ⟨c, hc, hcw⟩
  · exact hne hp
  · have hk : pre.length - 1 - q < e - q := by omega
    have hcd := runP_mem (e - q) q hrun (pre.length - 1 - q) hk
    have e1 : q + (pre.length - 1 - q) = pre.length - 1 := by omega
    rw [e1] at hcd
    have hchar : charAt s (pre.length - 1) = some c := by
      rw [hs]
      simp only [charAt]
      rw [List.get?_append (by omega)]
      rw [← List.getLast?_eq_get? pre]
      exact hc
    simp only [charIs, hchar, Option.any] at hcd
    have := isWordC_of_digit hcd
    rw [this] at hcw
    cases hcw

theorem mem_pairwise_split {α : Type} {R : α → α → Prop} {l : List α} {a : α}
    (hmem : a ∈ l) (hp : l.Pairwise R) :
    ∃ l1 l2, l = l1 ++ a :: l2 ∧ ∀ x ∈ l1, R x a := by
  induction l with
  | nil => simp at hmem
  | cons b rest ih =>
    rcases List.mem_cons.mp hmem with h | h
    · subst h
      exact ⟨[], rest, rfl, by simp⟩
    · obtain ⟨l1, l2, hsplit, hrel⟩ := ih h (List.Pairwise.sublist (by simp) hp)
      refine ⟨b :: l1, l2, by rw [hsplit]; rfl, ?_⟩
      intro x hx
      rcases List.mem_cons.mp hx with h2 | h2
      · subst h2
        exact (List.pairwise_cons.mp hp).1 a h
      · exact hrel x h2

theorem sliceStr_middle {pre t post : Str} :
    sliceStr (pre ++ (t ++ post)) pre.length (pre.length + t.length) = t := by
  simp only [sliceStr]
  rw [List.drop_left]
  have e1 : pre.length + t.length - pre.length = t.length := by omega
  rw [e1, List.take_left]

/-!
Deduplication lemmas: what the two passes of `detectPii` keep.
-/

theorem dedupPass1_keeps {bIns : List DetectionResult} {d : DetectionResult}
    (hb : isBuiltInDetection bIns d = true) :
    ∀ l1 l2 seen, (∀ x ∈ l1, keyOf x ≠ keyOf d) → keyOf d ∉ seen →
      d ∈ (dedupPass1 bIns (l1 ++ d :: l2) seen).1 := by
  intro l1
  induction l1 with
  | nil =>
    intro l2 seen _ hseen
    simp only [List.nil_append, dedupPass1, hb, if_true]
    rw [if_neg hseen]
    exact List.mem_cons_self _ _
  | cons a rest ih =>
    intro l2 seen hk hseen
    have hka : keyOf a ≠ keyOf d := hk a (List.mem_cons_self _ _)
    have hkrest : ∀ x ∈ rest, keyOf x ≠ keyOf d :=
      fun x hx => hk x (List.mem_cons_of_mem _ hx)
    show d ∈ (dedupPass1 bIns (a :: (rest ++ d :: l2)) seen).1
    simp only [dedupPass1]
    by_cases hba : isBuiltInDetection bIns a = true
    · rw [if_pos hba]
      by_cases hsa : keyOf a ∈ seen
      · rw [if_pos hsa]
        exact ih l2 seen hkrest hseen
      · rw [if_neg hsa]
        refine List.mem_cons_of_mem _ ?_
        exact ih l2 (keyOf a :: seen) hkrest (by
          intro h
          rcases List.mem_cons.mp h with h2 | h2
          · exact hka h2.symm
          · exact hseen h2)
    · rw [if_neg hba]
      exact ih l2 seen hkrest hseen

theorem dedupPass1_subset {bIns : List DetectionResult} :
    ∀ l seen r, r ∈ (dedupPass1 bIns l seen).1 → r ∈ l := by
  intro l
  induction l with
  | nil => intro seen r h; simp [dedupPass1] at h
  | cons a rest ih =>
    intro seen r h
    simp only [dedupPass1] at h
    by_cases hba : isBuiltInDetection bIns a = true
    · rw [if_pos hba] at h
      by_cases hsa : keyOf a ∈ seen
      · rw [if_pos hsa] at h
        exact List.mem_cons_of_mem _ (ih seen r h)
      · rw [if_neg hsa] at h
        rcases List.mem_cons.mp h with h2 | h2
        · subst h2; exact List.mem_cons_self _ _
        · exact List.mem_cons_of_mem _ (ih _ r h2)
    · rw [if_neg hba] at h
      exact List.mem_cons_of_mem _ (ih seen r h)

theorem dedupPass2_subset {bIns : List DetectionResult} :
    ∀ l seen r, r ∈ dedupPass2 bIns l seen → r ∈ l := by
  intro l
  induction l with
  | nil => intro seen r h; simp [dedupPass2] at h
  | cons a rest ih =>
    intro seen r h
    simp only [dedupPass2] at h
    by_cases hba : isBuiltInDetection bIns a = true
    · rw [if_pos hba] at h
      exact List.mem_cons_of_mem _ (ih seen r h)
    · rw [if_neg hba] at h
      by_cases hdup : (isDuplicateOfBuiltIn bIns a || decide (keyOf a ∈ seen)) = true
      · rw [if_pos (by simpa using hdup)] at h
        exact List.mem_cons_of_mem _ (ih seen r h)
      · rw [if_neg (by simpa using hdup)] at h
        rcases List.mem_cons.mp h with h2 | h2
        · subst h2; exact List.mem_cons_self _ _
        · exact List.mem_cons_of_mem _ (ih _ r h2)

theorem dedupResults_subset {bIns results : List DetectionResult}
    {r : DetectionResult} (h : r ∈ dedupResults bIns results) : r ∈ results := by
  rcases List.mem_append.mp h with h2 | h2
  · exact dedupPass1_subset _ _ r h2
  · exact dedupPass2_subset _ _ r h2

theorem isBI_self {bIns : List DetectionResult} {d : DetectionResult}
    (hd : d ∈ bIns) : isBuiltInDetection bIns d = true := by
  simp only [isBuiltInDetection, List.any_eq_true]
  exact ⟨d, hd, by simp⟩

theorem keyOf_start_eq {x d : DetectionResult} (h : keyOf x = keyOf d) :
    x.start = d.start := congrArg (fun k => k.2.1) h

/-- Claim C1 (amended): for every string that decomposes as
`pre ++ t ++ post` where `t` is a digit block matching one of the built-in
card-brand shapes, passing the Luhn check, and flanked by non-word characters
(or the ends of the string), `detectPii` — with any custom patterns — returns
the `CREDIT_CARD` detection covering exactly `t` (its `end` offset being
absent when the block starts at offset 0, as the source computes
`match.index ? ... : undefined`). -/
theorem C1_luhn_valid_card_detected (cps : List CustomPattern) (pre t post : Str)
    (hshape : specCardShape t = true) (hluhn : luhnCheck t = true)
    (hpre : pre = [] ∨ ∃ c, pre.getLast? = some c ∧ isWordC c = false)
    (hpost : post = [] ∨ ∃ c, post.head? = some c ∧ isWordC c = false) :
    (⟨"CREDIT_CARD", t, some pre.length,
        if pre.length = 0 then none else some (pre.length + t.length),
        none, none⟩ : DetectionResult) ∈ detectPii cps (pre ++ (t ++ post)) := by
  obtain ⟨hlen13, hlen16⟩ := specCardShape_len hshape
  have hscan : (pre.length, pre.length + t.length) ∈
      scanAll reCreditCard (pre ++ (t ++ post)) :=
    scan_cc_complete rfl hshape hpre hpost
  have hpw : (scanAll reCreditCard (pre ++ (t ++ post))).Pairwise
      (fun a b => a.1 < b.1) := scanAllGo_pairwise _ _
  obtain ⟨u, w, hsplit, hlt⟩ := mem_pairwise_split hscan hpw
  have hval : sliceStr (pre ++ (t ++ post)) pre.length (pre.length + t.length) = t :=
    sliceStr_middle
  set text := pre ++ (t ++ post) with htext
  set i := pre.length with hidef
  set d : DetectionResult := ⟨"CREDIT_CARD", t, some i,
    if i = 0 then none else some (i + t.length), none, none⟩ with hd
  have hmk : mkBuiltin ⟨"CREDIT_CARD", reCreditCard, some luhnCheck⟩ text
      (i, i + t.length) = some d := by
    simp only [mkBuiltin, hval, Option.map, Option.getD, hluhn, if_true, hd]
  have hbd : builtinDetections text =
      (scanAll reCreditCard text).filterMap
        (mkBuiltin ⟨"CREDIT_CARD", reCreditCard, some luhnCheck⟩ text) ++
      BUILT_IN_PATTERNS.tail.flatMap (fun p =>
        (scanAll p.regex text).filterMap (mkBuiltin p text)) := rfl
  have hccD : (scanAll reCreditCard text).filterMap
      (mkBuiltin ⟨"CREDIT_CARD", reCreditCard, some luhnCheck⟩ text) =
      u.filterMap (mkBuiltin ⟨"CREDIT_CARD", reCreditCard, some luhnCheck⟩ text) ++
      d :: w.filterMap (mkBuiltin ⟨"CREDIT_CARD", reCreditCard, some luhnCheck⟩ text) := by
    rw [hsplit, List.filterMap_append, List.filterMap_cons, hmk]
  have hdmem : d ∈ builtinDetections text := by
    rw [hbd, hccD]
    exact List.mem_append_left _ (List.mem_append_right _ (List.mem_cons_self _ _))
  have hukeys : ∀ x ∈ u.filterMap
      (mkBuiltin ⟨"CREDIT_CARD", reCreditCard, some luhnCheck⟩ text),
      keyOf x ≠ keyOf d := by
    intro x hx hkeq
    obtain ⟨m, hm, hmx⟩ := List.mem_filterMap.mp hx
    have hmlt : m.1 < i := hlt m hm
    have hxs : x.start = some m.1 := by
      simp only [mkBuiltin] at hmx
      split at hmx
      · rw [← Option.some.inj hmx]
      · cases hmx
    have h2 := keyOf_start_eq hkeq
    rw [hxs] at h2
    have h3 : d.start = some i := rfl
    rw [h3] at h2
    have : m.1 = i := Option.some.inj h2
    omega
  have htne : ¬ text.length = 0 := by
    have : text.length = pre.length + (t.length + post.length) := by
      simp [htext]
    omega
  show d ∈ detectPii cps text
  rw [detectPii, if_neg htne]
  show d ∈ dedupResults (builtinDetections text)
    (builtinDetections text ++ customDetections (builtinDetections text) cps text)
  have hres : builtinDetections text ++ customDetections (builtinDetections text) cps text =
      (u.filterMap (mkBuiltin ⟨"CREDIT_CARD", reCreditCard, some luhnCheck⟩ text)) ++
      d :: (w.filterMap (mkBuiltin ⟨"CREDIT_CARD", reCreditCard, some luhnCheck⟩ text) ++
        (BUILT_IN_PATTERNS.tail.flatMap (fun p =>
          (scanAll p.regex text).filterMap (mkBuiltin p text)) ++
          customDetections (builtinDetections text) cps text)) := by
    rw [hbd, hccD]
    simp [List.append_assoc]
  rw [hres]
  exact List.mem_append_left _
    (dedupPass1_keeps (isBI_self hdmem) _ _ [] hukeys (by simp))

/-- Witness for C1: the bare Luhn-valid Visa number `4111111111111111` is
detected (at offset 0, so with the absent end offset). -/
theorem C1_luhn_valid_card_detected_witness :
    (⟨"CREDIT_CARD", str "4111111111111111", some 0, none, none,
        none⟩ : DetectionResult) ∈ detectPii [] (str "4111111111111111") := by
  have h := C1_luhn_valid_card_detected [] [] (str "4111111111111111") []
    (by decide) (by decide) (Or.inl rfl) (Or.inl rfl)
  simpa using h

/-- Counterexample to C1 as stated: `1111111111111117` is a Luhn-valid
16-digit sequence, yet `detectPii` returns no span at all for it — the
`CREDIT_CARD` regex only matches the Visa/Mastercard/Amex/Diners/Discover
prefix shapes. -/
theorem C1_counterexample :
    luhnCheck (str "1111111111111117") = true ∧
    (str "1111111111111117").all isDigitC = true ∧
    (str "1111111111111117").length = 16 ∧
    detectPii [] (str "1111111111111117") = [] := by
  exact ⟨by decide, by decide, by decide, by decide⟩

theorem luhnGo_eq_specLuhnGo :
    ∀ (l : List Nat) (k : Nat), specLuhnGo k l = luhnGo (decide (k % 2 = 1)) l := by
  intro l
  induction l with
  | nil => intro k; rfl
  | cons d rest ih =>
    intro k
    simp only [specLuhnGo, luhnGo, specLuhnDouble]
    have hpar : (!decide (k % 2 = 1)) = decide ((k + 1) % 2 = 1) := by
      rcases Nat.mod_two_eq_zero_or_one k with h | h <;> simp [h, Nat.add_mod]
    rw [hpar, ← ih (k + 1)]
    by_cases hk : k % 2 = 1 <;> simp [hk]

theorem specLuhnGo_enumFrom :
    ∀ (l : List Nat) (k : Nat),
      ((List.enumFrom k l).map
        (fun p => if p.1 % 2 = 1 then specLuhnDouble p.2 else p.2)).sum =
      specLuhnGo k l := by
  intro l
  induction l with
  | nil => intro k; rfl
  | cons d rest ih =>
    intro k
    simp only [List.enumFrom, List.map_cons, List.sum_cons, specLuhnGo]
    rw [ih (k + 1)]

theorem specLuhnSum_eq_luhnGo (l : List Nat) :
    specLuhnSum l = luhnGo false l.reverse := by
  simp only [specLuhnSum, List.enum]
  rw [specLuhnGo_enumFrom l.reverse 0, luhnGo_eq_specLuhnGo]
  rfl

theorem mkBuiltin_inv {p : BuiltInPattern} {text : Str} {m : Nat × Nat}
    {r : DetectionResult} (h : mkBuiltin p text m = some r) :
    r.type = p.type ∧ r.value = sliceStr text m.1 m.2 ∧ r.start = some m.1 ∧
      r.stop = (if m.1 = 0 then none else some (m.1 + r.value.length)) ∧
      r.confidence = none ∧ r.patternName = none ∧
      (p.validate.map (fun v => v r.value)).getD true = true := by
  simp only [mkBuiltin] at h
  split at h
  · rename_i hval
    rw [← Option.some.inj h]
    exact ⟨rfl, rfl, rfl, rfl, rfl, rfl, hval⟩
  · cases h

theorem mkCustom_inv {bIns : List DetectionResult} {cp : CustomPattern}
    {text : Str} {m : Nat × Nat} {r : DetectionResult}
    (h : mkCustom bIns cp text m = some r) :
    r.type = normalizeType cp.pattern_type r.value ∧
      r.value = sliceStr text m.1 m.2 ∧ r.start = some m.1 ∧
      r.stop = some (m.1 + r.value.length) ∧
      r.confidence = some customConfidence ∧ r.patternName = some cp.name ∧
      alreadyDetected bIns r.value r.start r.stop = false := by
  simp only [mkCustom] at h
  split at h
  · cases h
  · rename_i hdup
    rw [← Option.some.inj h]
    exact ⟨rfl, rfl, rfl, rfl, rfl, rfl, by simpa using hdup⟩

theorem mem_builtinDetections {text : Str} {r : DetectionResult}
    (h : r ∈ builtinDetections text) :
    ∃ p ∈ BUILT_IN_PATTERNS, ∃ m ∈ scanAll p.regex text,
      mkBuiltin p text m = some r := by
  simp only [builtinDetections, List.mem_flatMap, List.mem_filterMap] at h
  obtain ⟨p, hp, m, hm, hmk⟩ := h
  exact ⟨p, hp, m, hm, hmk⟩

theorem mem_customDetections {bIns : List DetectionResult}
    {cps : List CustomPattern} {text : Str} {r : DetectionResult}
    (h : r ∈ customDetections bIns cps text) :
    ∃ cp ∈ cps, ∃ re, cp.compiled = some re ∧
      ∃ m ∈ scanAll re text, mkCustom bIns cp text m = some r := by
  simp only [customDetections, List.mem_flatMap] at h
  obtain ⟨cp, hcp, hr⟩ := h
  cases hc : cp.compiled with
  | none => rw [hc] at hr; simp at hr
  | some re =>
    rw [hc] at hr
    simp only [List.mem_filterMap] at hr
    obtain ⟨m, hm, hmk⟩ := hr
    exact ⟨cp, hcp, re, hc, m, hm, hmk⟩

theorem detectPii_mem_results {cps : List CustomPattern} {text : Str}
    {r : DetectionResult} (h : r ∈ detectPii cps text) :
    r ∈ builtinDetections text ++
      customDetections (builtinDetections text) cps text := by
  by_cases ht : text.length = 0
  · rw [detectPii, if_pos ht] at h
    simp at h
  · rw [detectPii, if_neg ht] at h
    exact dedupResults_subset h

theorem detectPiiType_cc {v : Str} (h : detectPiiType v = some "CREDIT_CARD") :
    luhnCheck v = true := by
  simp only [detectPiiType] at h
  split at h
  · exact absurd (Option.some.inj h) (by decide)
  · split at h
    · exact absurd (Option.some.inj h) (by decide)
    · split at h
      · exact absurd (Option.some.inj h) (by decide)
      · split at h
        · rename_i hcc
          exact (Bool.and_eq_true _ _ ▸ hcc).2
        · split at h
          · exact absurd (Option.some.inj h) (by decide)
          · split at h
            · exact absurd (Option.some.inj h) (by decide)
            · cases h

theorem luhnCheck_iff (v : Str) :
    luhnCheck v = true ↔
      (13 ≤ (v.filter isDigitC).length ∧ (v.filter isDigitC).length ≤ 19 ∧
        specLuhnSum ((v.filter isDigitC).map (fun c => c - 48)) % 10 = 0) := by
  have hlen : ((v.filter isDigitC).map (fun c => c - 48)).length =
      (v.filter isDigitC).length := by simp
  constructor
  · intro h
    simp only [luhnCheck] at h
    split at h
    · cases h
    · rename_i hcond
      simp only [Bool.or_eq_true, decide_eq_true_eq, not_or] at hcond
      rw [hlen] at hcond
      rw [specLuhnSum_eq_luhnGo]
      have hs : luhnGo false ((v.filter isDigitC).map (fun c => c - 48)).reverse
          % 10 = 0 := by simpa using h
      refine ⟨by omega, by omega, hs⟩
  · rintro ⟨h1, h2, h3⟩
    simp only [luhnCheck]
    split
    · rename_i hcond
      simp only [Bool.or_eq_true, decide_eq_true_eq] at hcond
      rw [hlen] at hcond
      exfalso
      rcases hcond with h | h <;> omega
    · rw [specLuhnSum_eq_luhnGo] at h3
      simpa using h3

theorem detectPii_cc_luhn {cps : List CustomPattern} {text : Str}
    {r : DetectionResult} (hno : ∀ cp ∈ cps, cp.pattern_type ≠ "CREDIT_CARD")
    (hr : r ∈ detectPii cps text) (hty : r.type = "CREDIT_CARD") :
    luhnCheck r.value = true := by
  rcases List.mem_append.mp (detectPii_mem_results hr) with hb | hc
  · obtain ⟨p, hp, m, hm, hmk⟩ := mem_builtinDetections hb
    obtain ⟨hty2, hval, -, -, -, -, hvalid⟩ := mkBuiltin_inv hmk
    rw [hty] at hty2
    simp only [BUILT_IN_PATTERNS, List.mem_cons, List.not_mem_nil, or_false] at hp
    rcases hp with rfl | rfl | rfl | rfl | rfl | rfl | rfl | rfl | rfl | rfl |
      rfl | rfl | rfl | rfl | rfl | rfl | rfl | rfl
    · simpa [Option.map, Option.getD] using hvalid
    all_goals exact absurd hty2 (by decide)
  · obtain ⟨cp, hcp, re, hre, m, hm, hmk⟩ := mem_customDetections hc
    obtain ⟨hty2, -, -, -, -, -, -⟩ := mkCustom_inv hmk
    have h3 : normalizeType cp.pattern_type r.value = "CREDIT_CARD" := by
      rw [← hty2]
      exact hty
    cases hdt : detectPiiType r.value with
    | some ty =>
      simp only [normalizeType, hdt] at h3
      exact detectPiiType_cc (by rw [hdt, h3])
    | none =>
      simp only [normalizeType, hdt] at h3
      split at h3
      · exact absurd h3 (by decide)
      · exact absurd h3 (hno cp hcp)

/-- Claim C2 (amended): `luhnCheck` accepts exactly the strings whose digit
count (after stripping non-digits) lies in 13..19 and whose Luhn sum (digits
summed right to left, every second digit doubled with 9 subtracted when the
double exceeds 9) is a multiple of 10; and — provided no active custom
pattern itself declares the `CREDIT_CARD` label — every `CREDIT_CARD`-typed
detection of `detectPii` passes `luhnCheck`, so no payment-card span is
produced for a card-shaped but Luhn-invalid sequence. -/
theorem C2_luhn_validator (v : Str) (cps : List CustomPattern) (text : Str)
    (r : DetectionResult) :
    (luhnCheck v = true ↔
      (13 ≤ (v.filter isDigitC).length ∧ (v.filter isDigitC).length ≤ 19 ∧
        specLuhnSum ((v.filter isDigitC).map (fun c => c - 48)) % 10 = 0)) ∧
    ((∀ cp ∈ cps, cp.pattern_type ≠ "CREDIT_CARD") → r ∈ detectPii cps text →
      r.type = "CREDIT_CARD" → luhnCheck r.value = true) :=
  ⟨luhnCheck_iff v, fun hno hr hty => detectPii_cc_luhn hno hr hty⟩

/-- Witness for C2 at concrete inputs: the validator accepts
`4111111111111111`, and the `CREDIT_CARD` span that `detectPii` returns for
it indeed passes `luhnCheck`. -/
theorem C2_luhn_validator_witness :
    luhnCheck (str "4111111111111111") = true ∧
    luhnCheck (⟨"CREDIT_CARD", str "4111111111111111", some 0, none, none,
        none⟩ : DetectionResult).value = true := by
  constructor
  · exact (C2_luhn_validator (str "4111111111111111") [] (str "4111111111111111")
      ⟨"CREDIT_CARD", str "4111111111111111", some 0, none, none, none⟩).1.mpr
      (by refine ⟨by decide, by decide, ?_⟩; decide)
  · exact (C2_luhn_validator (str "4111111111111111") []
      (str "4111111111111111")
      ⟨"CREDIT_CARD", str "4111111111111111", some 0, none, none, none⟩).2
      (by simp) (by decide) rfl

/-- Counterexample to C2 as stated: `4111111111111112` matches the card
shape and fails the Luhn check, yet a custom pattern that declares
`pattern_type = CREDIT_CARD` makes `detectPii` return a payment-card span
covering exactly that sequence. -/
theorem C2_counterexample :
    specCardShape (str "4111111111111112") = true ∧
    luhnCheck (str "4111111111111112") = false ∧
    detectPii [⟨"p2", "cc", some (reStr "4111111111111112"), "CREDIT_CARD",
        ActiveFlag.bool true⟩] (str "4111111111111112") =
      [⟨"CREDIT_CARD", str "4111111111111112", some 0, some 16,
        some customConfidence, some "cc"⟩] := by
  exact ⟨by decide, by decide, by decide⟩

/-!
Scan-time isolation of failing custom patterns, and registration behaviour.
-/

theorem customDetections_skip {bIns : List DetectionResult} {text : Str}
    {bad : CustomPattern} (h : bad.compiled = none)
    (cps1 cps2 : List CustomPattern) :
    customDetections bIns (cps1 ++ bad :: cps2) text =
      customDetections bIns (cps1 ++ cps2) text := by
  simp [customDetections, List.flatMap_append, List.flatMap_cons, h]

theorem detectPii_uncompiled_skip {bad : CustomPattern} (h : bad.compiled = none)
    (cps1 cps2 : List CustomPattern) (text : Str) :
    detectPii (cps1 ++ bad :: cps2) text = detectPii (cps1 ++ cps2) text := by
  by_cases ht : text.length = 0
  · rw [detectPii, detectPii, if_pos ht, if_pos ht]
  · rw [detectPii, detectPii, if_neg ht, if_neg ht]
    show dedupResults _ (_ ++ customDetections _ (cps1 ++ bad :: cps2) text) =
      dedupResults _ (_ ++ customDetections _ (cps1 ++ cps2) text)
    rw [customDetections_skip h]

/-- Claim C5 (confirmed): a matcher whose pattern fails at scan time (its
compilation inside the scan loop throws, `compiled = none`) is treated as
producing no matches, and the scan of every other matcher is unaffected:
`detectPii` with the failing matcher anywhere in the list equals `detectPii`
without it. -/
theorem C5_matcher_isolation (bad : CustomPattern) (cps1 cps2 : List CustomPattern)
    (text : Str) (h : bad.compiled = none) :
    customDetections (builtinDetections text) [bad] text = [] ∧
    detectPii (cps1 ++ bad :: cps2) text = detectPii (cps1 ++ cps2) text := by
  constructor
  · simp only [customDetections, List.flatMap_cons, List.flatMap_nil, h,
      List.append_nil]
  · exact detectPii_uncompiled_skip h cps1 cps2 text

/-- Witness for C5: a pattern that fails to compile contributes nothing to a
scan of `EMP-123456` alongside a working pattern. -/
theorem C5_matcher_isolation_witness :
    customDetections (builtinDetections (str "EMP-123456"))
      [⟨"x", "bad", none, "CUSTOM", ActiveFlag.bool true⟩] (str "EMP-123456") = [] ∧
    detectPii ([⟨"p1", "Employee ID",
        some (.seq (reStrCI "EMP") (.seq (reChar 45) (reN 6 reD))),
        "EMPLOYEE_ID", ActiveFlag.bool true⟩] ++
        ⟨"x", "bad", none, "CUSTOM", ActiveFlag.bool true⟩ :: []) (str "EMP-123456") =
      detectPii ([⟨"p1", "Employee ID",
        some (.seq (reStrCI "EMP") (.seq (reChar 45) (reN 6 reD))),
        "EMPLOYEE_ID", ActiveFlag.bool true⟩] ++ []) (str "EMP-123456") :=
  C5_matcher_isolation ⟨"x", "bad", none, "CUSTOM", ActiveFlag.bool true⟩ _ [] _ rfl

/-- Claim C4 (amended): `setCustomPatterns` keeps every active pattern —
including ones whose regex fails to compile — and returns no report (compile
failures are only logged); the failing pattern is skipped at scan time by the
per-pattern try/catch in `detectPii`, so the remaining patterns still produce
their detections (partial success at scan time, not at registration). -/
theorem C4_registration_keeps_invalid (ps : List CustomPattern)
    (bad : CustomPattern) (text : Str) (hbad : bad.compiled = none)
    (hact : isActivePattern bad = true) :
    bad ∈ setCustomPatterns (ps ++ [bad]) ∧
    detectPii (setCustomPatterns (ps ++ [bad])) text =
      detectPii (setCustomPatterns ps) text := by
  have hset : setCustomPatterns (ps ++ [bad]) = setCustomPatterns ps ++ [bad] := by
    simp [setCustomPatterns, List.filter_append, hact]
  constructor
  · rw [hset]
    exact List.mem_append_right _ (List.mem_singleton.mpr rfl)
  · rw [hset]
    have h := detectPii_uncompiled_skip hbad (setCustomPatterns ps) [] text
    simpa using h

/-- Witness for C4: an active pattern that fails to compile stays in the
stored set and changes no scan result. -/
theorem C4_registration_keeps_invalid_witness :
    (⟨"x", "bad", none, "CUSTOM", ActiveFlag.bool true⟩ : CustomPattern) ∈
      setCustomPatterns ([] ++ [⟨"x", "bad", none, "CUSTOM", ActiveFlag.bool true⟩]) ∧
    detectPii (setCustomPatterns ([] ++ [⟨"x", "bad", none, "CUSTOM",
        ActiveFlag.bool true⟩])) (str "a@b.com") =
      detectPii (setCustomPatterns []) (str "a@b.com") :=
  C4_registration_keeps_invalid [] _ (str "a@b.com") rfl rfl

/-- Counterexample to C4 as stated: an active pattern whose regex does not
compile is NOT excluded from the active matcher set — `setCustomPatterns`
stores it unchanged (and returns no report at all). -/
theorem C4_counterexample :
    setCustomPatterns [⟨"x", "bad", none, "CUSTOM", ActiveFlag.bool true⟩] =
      [⟨"x", "bad", none, "CUSTOM", ActiveFlag.bool true⟩] := rfl

/-- Claim C6 (confirmed): a custom match that survives the duplicate check is
re-typed by the shape checks when one accepts; otherwise a generic declared
label (`CUSTOM`, `REGEX`, or unset) collapses to `CUSTOM` and any other label
is kept — in particular `EMP-123456` with a custom `EMPLOYEE_ID` pattern
yields exactly one span still typed `EMPLOYEE_ID`. -/
theorem C6_custom_type_normalization (bIns : List DetectionResult)
    (cps : List CustomPattern) (text : Str) (r : DetectionResult) :
    (r ∈ customDetections bIns cps text →
      (∀ ty, detectPiiType r.value = some ty → r.type = ty) ∧
      (detectPiiType r.value = none →
        ∃ cp ∈ cps, r.patternName = some cp.name ∧
          r.type = if cp.pattern_type = "CUSTOM" ∨ cp.pattern_type = "REGEX" ∨
            cp.pattern_type = "" then "CUSTOM" else cp.pattern_type)) ∧
    detectPii [empPattern] (str "EMP-123456") =
      [⟨"EMPLOYEE_ID", str "EMP-123456", some 0, some 10, some customConfidence,
        some "Employee ID"⟩] := by
  constructor
  · intro hr
    obtain ⟨cp, hcp, re, hre, m, hm, hmk⟩ := mem_customDetections hr
    obtain ⟨hty, -, -, -, -, hname, -⟩ := mkCustom_inv hmk
    constructor
    · intro ty hdt
      rw [hty]
      simp [normalizeType, hdt]
    · intro hdt
      refine ⟨cp, hcp, hname, ?_⟩
      rw [hty]
      simp only [normalizeType, hdt]
      by_cases hcond : cp.pattern_type = "CUSTOM" ∨ cp.pattern_type = "REGEX" ∨
          cp.pattern_type = ""
      · rw [if_pos hcond]
        rcases hcond with h | h | h <;> simp [h]
      · rw [if_neg hcond]
        push_neg at hcond
        obtain ⟨h1, h2, h3⟩ := hcond
        simp [h1, h2, h3]
  · decide

/-- Witness for C6: the `EMP-123456` custom detection keeps its declared
non-generic label. -/
theorem C6_custom_type_normalization_witness :
    ∃ cp ∈ [empPattern],
      (⟨"EMPLOYEE_ID", str "EMP-123456", some 0, some 10, some customConfidence,
          some "Employee ID"⟩ : DetectionResult).patternName = some cp.name ∧
      (⟨"EMPLOYEE_ID", str "EMP-123456", some 0, some 10, some customConfidence,
          some "Employee ID"⟩ : DetectionResult).type =
        if cp.pattern_type = "CUSTOM" ∨ cp.pattern_type = "REGEX" ∨
          cp.pattern_type = "" then "CUSTOM" else cp.pattern_type :=
  ((C6_custom_type_normalization (builtinDetections (str "EMP-123456"))
      [empPattern] (str "EMP-123456")
      ⟨"EMPLOYEE_ID", str "EMP-123456", some 0, some 10, some customConfidence,
        some "Employee ID"⟩).1 (by decide)).2 (by decide)

/-!
Email masking.
-/

theorem jsSplit_no_sep {sep : Nat} : ∀ {l : Str}, sep ∉ l → jsSplit sep l = [l] := by
  intro l
  induction l with
  | nil => intro _; rfl
  | cons c rest ih =>
    intro h
    have hc : ¬ c = sep := fun hc => h (hc ▸ List.mem_cons_self _ _)
    simp only [jsSplit, if_neg hc]
    rw [ih (fun hm => h (List.mem_cons_of_mem _ hm))]

theorem jsSplit_append_sep {sep : Nat} :
    ∀ (u rest : Str), sep ∉ u →
      jsSplit sep (u ++ sep :: rest) = u :: jsSplit sep rest := by
  intro u
  induction u with
  | nil =>
    intro rest _
    show jsSplit sep (sep :: rest) = [] :: jsSplit sep rest
    simp [jsSplit]
  | cons c urest ih =>
    intro rest h
    have hc : ¬ c = sep := fun hc => h (hc ▸ List.mem_cons_self _ _)
    show jsSplit sep (c :: (urest ++ sep :: rest)) = _
    simp only [jsSplit, if_neg hc]
    rw [ih rest (fun hm => h (List.mem_cons_of_mem _ hm))]

/-- Claim C7 (amended): masking an email keeps the first character of the
local part, replaces the rest of the local part with `max(len - 1, 2)`
redaction glyphs (so at least 2), and keeps the domain; the scenario text
yields exactly one email span, and masking `j.doe@example.com` yields
`j••••@example.com` (four glyphs — `max(5 - 1, 2)` — not the seven of the
original claim). -/
theorem C7_email_masking (u dm : Str) (st sp : Option Nat) (cf : Option Rat)
    (pn : Option String) :
    (u ≠ [] → dm ≠ [] → 64 ∉ u → 64 ∉ dm →
      anonymizeValue ⟨"EMAIL", u ++ 64 :: dm, st, sp, cf, pn⟩ =
        u.take 1 ++ List.replicate (max (u.length - 1) 2) bulletC ++ 64 :: dm) ∧
    detectPii [] (str "reach me at j.doe@example.com") =
      [⟨"EMAIL", str "j.doe@example.com", some 12, some 29, none, none⟩] ∧
    anonymizeValue ⟨"EMAIL", str "j.doe@example.com", some 12, some 29, none,
        none⟩ = str "j••••@example.com" := by
  refine ⟨?_, by decide, by decide⟩
  intro hu hdm husep hdmsep
  simp only [anonymizeValue, if_true, if_false]
  rw [jsSplit_append_sep u dm husep, jsSplit_no_sep hdmsep]
  show (if (decide (u = []) || decide (dm = [])) = true then str "[REDACTED]"
      else u.take 1 ++ List.replicate (max (u.length - 1) 2) bulletC ++
        str "@" ++ dm) = _
  rw [if_neg (by simp [hu, hdm])]
  have hat : str "@" = [64] := rfl
  rw [hat]
  simp [List.append_assoc]

/-- Witness for C7: the general email rule applied to local part `j.doe` and
domain `example.com`. -/
theorem C7_email_masking_witness :
    anonymizeValue ⟨"EMAIL", str "j.doe" ++ 64 :: str "example.com", none, none,
        none, none⟩ =
      (str "j.doe").take 1 ++
        List.replicate (max ((str "j.doe").length - 1) 2) bulletC ++
        64 :: str "example.com" :=
  (C7_email_masking (str "j.doe") (str "example.com") none none none none).1
    (by decide) (by decide) (by decide) (by decide)

/-- Counterexample to C7 as stated: the scenario span exists, but masking it
produces `j••••@example.com` (four glyphs), not `j•••••••@example.com`. -/
theorem C7_counterexample :
    anonymizeValue ⟨"EMAIL", str "j.doe@example.com", some 12, some 29, none,
        none⟩ = str "j••••@example.com" ∧
    str "j••••@example.com" ≠ str "j•••••••@example.com" := by
  exact ⟨by decide, by decide⟩

/-- Claim C8 (confirmed): `filterExpectedDetections` keeps exactly the
detections whose category is not in the expected set (with an empty set it
returns the list unchanged, which filters nothing); and for a field named
`email` holding `a@b.com`, the expected set contains `EMAIL` and the filtered
detection list is empty. -/
theorem C8_filter_expected (ds : List DetectionResult) (es : List String)
    (d : DetectionResult) :
    (d ∈ filterExpectedDetections ds es ↔ d ∈ ds ∧ es.contains d.type = false) ∧
    "EMAIL" ∈ getExpectedInputType emailNameField ∧
    filterExpectedDetections (detectPii [] (str "a@b.com"))
      (getExpectedInputType emailNameField) = [] := by
  refine ⟨?_, by decide, by decide⟩
  simp only [filterExpectedDetections]
  split
  · rename_i hlen
    have hes : es = [] := List.length_eq_zero.mp hlen
    subst hes
    simp
  · simp only [List.mem_filter, Bool.not_eq_true']

/-!
Non-empty matched values.
-/

theorem sliceStr_ne_nil {s : Str} {i e : Nat} (h1 : i < e) (h2 : e ≤ s.length) :
    sliceStr s i e ≠ [] := by
  have hlen : (sliceStr s i e).length = min (e - i) (s.length - i) := by
    simp [sliceStr]
  intro hnil
  rw [hnil] at hlen
  simp only [List.length_nil] at hlen
  omega

theorem scan_value_ne_nil {re : Re} {text : Str} {m : Nat × Nat}
    (hmin : 1 ≤ minLen re) (hm : m ∈ scanAll re text) :
    sliceStr text m.1 m.2 ≠ [] := by
  obtain ⟨hle, hmatch⟩ := scanAll_mem hm
  have hmem := matchAt_mem hmatch
  have h1 := ends_min m.1 m.2 hmem
  have h2 := ends_le m.1 m.2 hmem
  rcases h2 with h2 | ⟨h2, h3⟩
  · omega
  · exact sliceStr_ne_nil (by omega) h3

/-- Claim C9 (amended): provided every active custom pattern consumes at
least one character (cannot match the empty string), every detection that
`detectPii` returns has a non-empty value; the built-in patterns all consume
at least one character unconditionally. -/
theorem C9_no_empty_values (cps : List CustomPattern) (text : Str)
    (r : DetectionResult)
    (hmin : ∀ cp ∈ cps, ∀ re, cp.compiled = some re → 1 ≤ minLen re)
    (hr : r ∈ detectPii cps text) : r.value ≠ [] := by
  rcases List.mem_append.mp (detectPii_mem_results hr) with hb | hc
  · obtain ⟨p, hp, m, hm, hmk⟩ := mem_builtinDetections hb
    obtain ⟨-, hval, -, -, -, -, -⟩ := mkBuiltin_inv hmk
    rw [hval]
    have hminp : 1 ≤ minLen p.regex := by
      have hall : BUILT_IN_PATTERNS.all (fun p => decide (1 ≤ minLen p.regex)) =
          true := by decide
      have := List.all_eq_true.mp hall p hp
      simpa using this
    exact scan_value_ne_nil hminp hm
  · obtain ⟨cp, hcp, re, hre, m, hm, hmk⟩ := mem_customDetections hc
    obtain ⟨-, hval, -, -, -, -, -⟩ := mkCustom_inv hmk
    rw [hval]
    exact scan_value_ne_nil (hmin cp hcp re hre) hm

/-- Witness for C9: the email detection in `a@b.com` has a non-empty
value. -/
theorem C9_no_empty_values_witness :
    (⟨"EMAIL", str "a@b.com", some 0, none, none, none⟩ : DetectionResult).value
      ≠ [] :=
  C9_no_empty_values [] (str "a@b.com")
    ⟨"EMAIL", str "a@b.com", some 0, none, none, none⟩ (by simp) (by decide)

/-- Counterexample to C9 as stated: a custom pattern that can match the
empty string (here `a*` with the `gi` flags) makes `detectPii` return
detections whose value is empty. -/
theorem C9_counterexample :
    ∃ r ∈ detectPii [⟨"p3", "star", some (reStar (reCharCI 97)), "CUSTOM",
        ActiveFlag.bool true⟩] (str "b"), r.value = [] := by
  refine ⟨⟨"CUSTOM", [], some 0, some 0, some customConfidence, some "star"⟩,
    by decide, rfl⟩

/-!
Queue behaviour.
-/

theorem add_processing {q : List QueueItem} (client : Bool) (it : QueueItem) :
    (DetectionQueue.mk q true).add client it = ⟨q ++ [it], true⟩ := by
  simp only [DetectionQueue.add, DetectionQueue.flush]
  split
  · rw [if_pos (by simp)]
  · rfl

theorem foldl_add_processing (client : Bool) (items : List QueueItem) :
    ∀ q : List QueueItem,
      items.foldl (fun st it => st.add client it)
          (DetectionQueue.mk q true) =
        DetectionQueue.mk (q ++ items) true := by
  induction items with
  | nil => intro q; simp
  | cons it rest ih =>
    intro q
    simp only [List.foldl_cons]
    rw [add_processing, ih (q ++ [it])]
    simp

theorem burst_first_batch (it : QueueItem) :
    (List.replicate 10 it).foldl (fun st x => st.add true x)
      DetectionQueue.initial = DetectionQueue.mk [] true := by
  simp [List.replicate, DetectionQueue.add, DetectionQueue.flush,
    DetectionQueue.initial, BATCH_SIZE]

theorem add_false_queue {st : DetectionQueue} (h2 : st.processing = false)
    (it : QueueItem) :
    (st.add false it).queue = st.queue ++ [it] ∧
      (st.add false it).processing = false := by
  simp only [DetectionQueue.add]
  split
  · simp only [DetectionQueue.flush]
    split
    · exact ⟨rfl, h2⟩
    · rw [if_pos (by decide)]
      exact ⟨rfl, rfl⟩
  · exact ⟨rfl, h2⟩

theorem foldl_add_false_queue (items : List QueueItem) :
    ∀ st : DetectionQueue, st.processing = false →
      ((items.foldl (fun st it => st.add false it) st).queue =
          st.queue ++ items ∧
        (items.foldl (fun st it => st.add false it) st).processing = false) := by
  induction items with
  | nil => intro st h2; exact ⟨by simp, h2⟩
  | cons it rest ih =>
    intro st h2
    obtain ⟨h3, h4⟩ := add_false_queue h2 it
    obtain ⟨h5, h6⟩ := ih (st.add false it) h4
    simp only [List.foldl_cons]
    rw [h5, h3]
    exact ⟨by simp, h6⟩

/-- Claim C10 (amended): the queue is not bounded by a fixed capacity and no
stored item is ever silently dropped.  (a) An `add` either just appends the
item, or — only when the API client is available, no delivery is in flight,
and the queue has reached `BATCH_SIZE` — splices off the oldest `BATCH_SIZE`
items for delivery and leaves `processing` set; (b) the delivery settling
never re-queues or removes stored items; (c) with no API client available,
`n` adds leave all `n` items stored; (d) even with a client available, adds
arriving while the delivery triggered by the tenth add is still awaited only
append (the threshold flush no-ops on the `processing` guard), so a
synchronous burst of 21 adds from an idle empty queue leaves 11 items
stored. -/
theorem C10_queue_growth (client : Bool) (st : DetectionQueue)
    (it : QueueItem) (items : List QueueItem) :
    ((st.add client it).queue = st.queue ++ [it] ∨
      ((st.add client it).queue = (st.queue ++ [it]).drop BATCH_SIZE ∧
        (st.add client it).processing = true ∧ client = true ∧
        st.processing = false ∧ BATCH_SIZE ≤ st.queue.length + 1)) ∧
    st.settle.queue = st.queue ∧
    (items.foldl (fun s x => s.add false x) DetectionQueue.initial).queue
        = items ∧
    ((List.replicate 21 it).foldl (fun s x => s.add true x)
        DetectionQueue.initial).queue = List.replicate 11 it := by
  obtain ⟨q, p⟩ := st
  refine ⟨?_, rfl, ?_, ?_⟩
  · simp only [DetectionQueue.add, DetectionQueue.flush]
    by_cases hlen : BATCH_SIZE ≤ (q ++ [it]).length
    · rw [if_pos hlen]
      cases p with
      | true => rw [if_pos (by simp)]; exact Or.inl rfl
      | false =>
        rw [if_neg (by simp)]
        cases client with
        | false => rw [if_pos (by decide)]; exact Or.inl rfl
        | true =>
          rw [if_neg (by decide)]
          refine Or.inr ⟨rfl, rfl, rfl, rfl, ?_⟩
          simpa using hlen
    · rw [if_neg hlen]
      exact Or.inl rfl
  · have h := foldl_add_false_queue items DetectionQueue.initial rfl
    simpa [DetectionQueue.initial] using h.1
  · have h1 : List.replicate 21 it = List.replicate 10 it ++ List.replicate 11 it := by
      rw [← List.replicate_add]
    rw [h1, List.foldl_append, burst_first_batch, foldl_add_processing]
    simp

/-- Counterexample to C10 as stated: with no API client available, eleven
enqueues leave eleven stored items — past the only fixed capacity in the
code (`BATCH_SIZE = 10`) — and nothing is dropped. -/
theorem C10_counterexample :
    BATCH_SIZE <
      ((List.replicate 11 (⟨"EMAIL", "site", QueueAction.detected, none⟩ :
          QueueItem)).foldl (fun st it => st.add false it)
          DetectionQueue.initial).queue.length := by decide

/-!
Merge and deduplication: the two passes in detail, for the conflict-resolution
claim.
-/

theorem alreadyDetected_iff {bIns : List DetectionResult} {v : Str}
    {st sp : Option Nat} :
    alreadyDetected bIns v st sp = true ↔
      ∃ b ∈ bIns, b.value = v ∧ b.start = st ∧ b.stop = sp := by
  simp only [alreadyDetected, List.any_eq_true, Bool.and_eq_true, beq_iff_eq]
  tauto

theorem isBI_triple {bIns : List DetectionResult} {r : DetectionResult}
    (h : isBuiltInDetection bIns r = true) :
    alreadyDetected bIns r.value r.start r.stop = true := by
  simp only [isBuiltInDetection, List.any_eq_true, Bool.and_eq_true,
    beq_iff_eq] at h
  obtain ⟨b, hb, ⟨⟨⟨h1, h2⟩, h3⟩, h4⟩⟩ := h
  exact alreadyDetected_iff.mpr ⟨b, hb, h1, h2, h3⟩

theorem customs_not_BI {bIns : List DetectionResult} {cps : List CustomPattern}
    {text : Str} {r : DetectionResult} (hr : r ∈ customDetections bIns cps text) :
    isBuiltInDetection bIns r = false := by
  obtain ⟨cp, hcp, re, hre, m, hm, hmk⟩ := mem_customDetections hr
  obtain ⟨-, -, -, -, -, -, had⟩ := mkCustom_inv hmk
  by_contra hbi
  rw [Bool.not_eq_false] at hbi
  rw [isBI_triple hbi] at had
  cases had

theorem builtin_patternName_none {text : Str} {r : DetectionResult}
    (hr : r ∈ builtinDetections text) : r.patternName = none := by
  obtain ⟨p, hp, m, hm, hmk⟩ := mem_builtinDetections hr
  exact (mkBuiltin_inv hmk).2.2.2.2.2.1

theorem isDuplicate_key {bIns : List DetectionResult} {r : DetectionResult}
    (h : isDuplicateOfBuiltIn bIns r = true) :
    ∃ b ∈ bIns, keyOf b = keyOf r := by
  simp only [isDuplicateOfBuiltIn, List.any_eq_true, Bool.and_eq_true,
    beq_iff_eq] at h
  obtain ⟨b, hb, ⟨⟨h1, h2⟩, h3⟩⟩ := h
  exact ⟨b, hb, by simp [keyOf, h1, h2, h3]⟩

theorem pass1_append {bIns : List DetectionResult} :
    ∀ (l1 l2 : List DetectionResult) (seen : List (Str × Option Nat × Option Nat)),
      dedupPass1 bIns (l1 ++ l2) seen =
        ((dedupPass1 bIns l1 seen).1 ++
          (dedupPass1 bIns l2 (dedupPass1 bIns l1 seen).2).1,
         (dedupPass1 bIns l2 (dedupPass1 bIns l1 seen).2).2) := by
  intro l1
  induction l1 with
  | nil => intro l2 seen; simp [dedupPass1]
  | cons a rest ih =>
    intro l2 seen
    show dedupPass1 bIns (a :: (rest ++ l2)) seen = _
    simp only [dedupPass1]
    by_cases hba : isBuiltInDetection bIns a = true
    · rw [if_pos hba, if_pos hba]
      by_cases hsa : keyOf a ∈ seen
      · rw [if_pos hsa, if_pos hsa]
        exact ih l2 seen
      · rw [if_neg hsa, if_neg hsa]
        rw [ih l2 (keyOf a :: seen)]
        rfl
    · rw [if_neg hba, if_neg hba]
      exact ih l2 seen

theorem pass1_none {bIns : List DetectionResult} :
    ∀ (l : List DetectionResult) (seen : List (Str × Option Nat × Option Nat)),
      (∀ r ∈ l, isBuiltInDetection bIns r = false) →
      dedupPass1 bIns l seen = ([], seen) := by
  intro l
  induction l with
  | nil => intro seen _; rfl
  | cons a rest ih =>
    intro seen h
    have hba : isBuiltInDetection bIns a = false := h a (List.mem_cons_self _ _)
    simp only [dedupPass1, hba]
    rw [if_neg (by simp [hba])]
    exact ih seen (fun r hr => h r (List.mem_cons_of_mem _ hr))

theorem pass1_sublist {bIns : List DetectionResult} :
    ∀ (l : List DetectionResult) (seen : List (Str × Option Nat × Option Nat)),
      (dedupPass1 bIns l seen).1.Sublist l := by
  intro l
  induction l with
  | nil => intro seen; simp [dedupPass1]
  | cons a rest ih =>
    intro seen
    simp only [dedupPass1]
    by_cases hba : isBuiltInDetection bIns a = true
    · rw [if_pos hba]
      by_cases hsa : keyOf a ∈ seen
      · rw [if_pos hsa]
        exact List.Sublist.cons a (ih seen)
      · rw [if_neg hsa]
        exact List.Sublist.cons₂ a (ih (keyOf a :: seen))
    · rw [if_neg hba]
      exact List.Sublist.cons a (ih seen)

theorem pass1_all_BI {bIns : List DetectionResult} :
    ∀ (l : List DetectionResult) (seen : List (Str × Option Nat × Option Nat)),
      ∀ r ∈ (dedupPass1 bIns l seen).1, isBuiltInDetection bIns r = true := by
  intro l
  induction l with
  | nil => intro seen r h; simp [dedupPass1] at h
  | cons a rest ih =>
    intro seen r h
    simp only [dedupPass1] at h
    by_cases hba : isBuiltInDetection bIns a = true
    · rw [if_pos hba] at h
      by_cases hsa : keyOf a ∈ seen
      · rw [if_pos hsa] at h
        exact ih seen r h
      · rw [if_neg hsa] at h
        rcases List.mem_cons.mp h with h2 | h2
        · subst h2; exact hba
        · exact ih _ r h2
    · rw [if_neg hba] at h
      exact ih seen r h

theorem pass1_spec {bIns : List DetectionResult} :
    ∀ (l : List DetectionResult) (seen : List (Str × Option Nat × Option Nat)),
      (dedupPass1 bIns l seen).1.Pairwise (fun a b => keyOf a ≠ keyOf b) ∧
      (∀ r ∈ (dedupPass1 bIns l seen).1, keyOf r ∉ seen) ∧
      (∀ k, k ∈ (dedupPass1 bIns l seen).2 ↔
        k ∈ seen ∨ ∃ r ∈ (dedupPass1 bIns l seen).1, keyOf r = k) := by
  intro l
  induction l with
  | nil =>
    intro seen
    refine ⟨by simp [dedupPass1], by simp [dedupPass1], ?_⟩
    intro k
    simp [dedupPass1]
  | cons a rest ih =>
    intro seen
    simp only [dedupPass1]
    by_cases hba : isBuiltInDetection bIns a = true
    · rw [if_pos hba]
      by_cases hsa : keyOf a ∈ seen
      · rw [if_pos hsa]
        exact ih seen
      · rw [if_neg hsa]
        obtain ⟨ihp, ihs, ihk⟩ := ih (keyOf a :: seen)
        refine ⟨?_, ?_, ?_⟩
        · refine List.pairwise_cons.mpr ⟨?_, ihp⟩
          intro b hb heq
          exact ihs b hb (heq ▸ List.mem_cons_self _ _)
        · intro r hr
          rcases List.mem_cons.mp hr with h2 | h2
          · subst h2; exact hsa
          · intro hmem
            exact ihs r h2 (List.mem_cons_of_mem _ hmem)
        · intro k
          rw [ihk k]
          constructor
          · rintro (h2 | ⟨r, hr, hk⟩)
            · rcases List.mem_cons.mp h2 with h3 | h3
              · exact Or.inr ⟨a, List.mem_cons_self _ _, h3.symm⟩
              · exact Or.inl h3
            · exact Or.inr ⟨r, List.mem_cons_of_mem _ hr, hk⟩
          · rintro (h2 | ⟨r, hr, hk⟩)
            · exact Or.inl (List.mem_cons_of_mem _ h2)
            · rcases List.mem_cons.mp hr with h3 | h3
              · subst h3
                exact Or.inl (hk ▸ List.mem_cons_self _ _)
              · exact Or.inr ⟨r, h3, hk⟩
    · rw [if_neg hba]
      exact ih seen

theorem pass1_covers {bIns : List DetectionResult} :
    ∀ (l : List DetectionResult) (seen : List (Str × Option Nat × Option Nat))
      (x : DetectionResult), x ∈ l → isBuiltInDetection bIns x = true →
      keyOf x ∈ seen ∨ ∃ r ∈ (dedupPass1 bIns l seen).1, keyOf r = keyOf x := by
  intro l
  induction l with
  | nil => intro seen x h; simp at h
  | cons a rest ih =>
    intro seen x hx hbx
    simp only [dedupPass1]
    by_cases hba : isBuiltInDetection bIns a = true
    · rw [if_pos hba]
      by_cases hsa : keyOf a ∈ seen
      · rw [if_pos hsa]
        rcases List.mem_cons.mp hx with h2 | h2
        · subst h2; exact Or.inl hsa
        · exact ih seen x h2 hbx
      · rw [if_neg hsa]
        rcases List.mem_cons.mp hx with h2 | h2
        · subst h2
          exact Or.inr ⟨x, List.mem_cons_self _ _, rfl⟩
        · rcases ih (keyOf a :: seen) x h2 hbx with h3 | ⟨r, hr, hk⟩
          · rcases List.mem_cons.mp h3 with h4 | h4
            · exact Or.inr ⟨a, List.mem_cons_self _ _, h4.symm⟩
            · exact Or.inl h4
          · exact Or.inr ⟨r, List.mem_cons_of_mem _ hr, hk⟩
    · rw [if_neg hba]
      rcases List.mem_cons.mp hx with h2 | h2
      · subst h2; exact absurd hbx hba
      · exact ih seen x h2 hbx

theorem pass2_skip_BI {bIns : List DetectionResult} :
    ∀ (l1 l2 : List DetectionResult) (seen : List (Str × Option Nat × Option Nat)),
      (∀ r ∈ l1, isBuiltInDetection bIns r = true) →
      dedupPass2 bIns (l1 ++ l2) seen = dedupPass2 bIns l2 seen := by
  intro l1
  induction l1 with
  | nil => intro l2 seen _; rfl
  | cons a rest ih =>
    intro l2 seen h
    show dedupPass2 bIns (a :: (rest ++ l2)) seen = _
    simp only [dedupPass2]
    rw [if_pos (h a (List.mem_cons_self _ _))]
    exact ih l2 seen (fun r hr => h r (List.mem_cons_of_mem _ hr))

theorem pass2_sublist {bIns : List DetectionResult} :
    ∀ (l : List DetectionResult) (seen : List (Str × Option Nat × Option Nat)),
      (dedupPass2 bIns l seen).Sublist l := by
  intro l
  induction l with
  | nil => intro seen; simp [dedupPass2]
  | cons a rest ih =>
    intro seen
    simp only [dedupPass2]
    by_cases hba : isBuiltInDetection bIns a = true
    · rw [if_pos hba]
      exact List.Sublist.cons a (ih seen)
    · rw [if_neg hba]
      by_cases hdup : (isDuplicateOfBuiltIn bIns a || decide (keyOf a ∈ seen)) = true
      · rw [if_pos (by simpa using hdup)]
        exact List.Sublist.cons a (ih seen)
      · rw [if_neg (by simpa using hdup)]
        exact List.Sublist.cons₂ a (ih (keyOf a :: seen))

theorem pass2_all_not_BI {bIns : List DetectionResult} :
    ∀ (l : List DetectionResult) (seen : List (Str × Option Nat × Option Nat)),
      ∀ r ∈ dedupPass2 bIns l seen, isBuiltInDetection bIns r = false := by
  intro l
  induction l with
  | nil => intro seen r h; simp [dedupPass2] at h
  | cons a rest ih =>
    intro seen r h
    simp only [dedupPass2] at h
    by_cases hba : isBuiltInDetection bIns a = true
    · rw [if_pos hba] at h
      exact ih seen r h
    · rw [if_neg hba] at h
      by_cases hdup : (isDuplicateOfBuiltIn bIns a || decide (keyOf a ∈ seen)) = true
      · rw [if_pos (by simpa using hdup)] at h
        exact ih seen r h
      · rw [if_neg (by simpa using hdup)] at h
        rcases List.mem_cons.mp h with h2 | h2
        · subst h2; simpa using hba
        · exact ih _ r h2

theorem pass2_spec {bIns : List DetectionResult} :
    ∀ (l : List DetectionResult) (seen : List (Str × Option Nat × Option Nat)),
      (dedupPass2 bIns l seen).Pairwise (fun a b => keyOf a ≠ keyOf b) ∧
      (∀ r ∈ dedupPass2 bIns l seen, keyOf r ∉ seen) := by
  intro l
  induction l with
  | nil => intro seen; simp [dedupPass2]
  | cons a rest ih =>
    intro seen
    simp only [dedupPass2]
    by_cases hba : isBuiltInDetection bIns a = true
    · rw [if_pos hba]; exact ih seen
    · rw [if_neg hba]
      by_cases hdup : (isDuplicateOfBuiltIn bIns a || decide (keyOf a ∈ seen)) = true
      · rw [if_pos (by simpa using hdup)]; exact ih seen
      · rw [if_neg (by simpa using hdup)]
        simp only [Bool.or_eq_true, decide_eq_true_eq, not_or] at hdup
        obtain ⟨ihp, ihs⟩ := ih (keyOf a :: seen)
        refine ⟨?_, ?_⟩
        · refine List.pairwise_cons.mpr ⟨?_, ihp⟩
          intro b hb heq
          exact ihs b hb (heq ▸ List.mem_cons_self _ _)
        · intro r hr
          rcases List.mem_cons.mp hr with h2 | h2
          · subst h2
            exact fun hmem => hdup.2 hmem
          · intro hmem
            exact ihs r h2 (List.mem_cons_of_mem _ hmem)

theorem pass2_covers {bIns : List DetectionResult} :
    ∀ (l : List DetectionResult) (seen : List (Str × Option Nat × Option Nat))
      (x : DetectionResult), x ∈ l → isBuiltInDetection bIns x = false →
      isDuplicateOfBuiltIn bIns x = false →
      keyOf x ∈ seen ∨ ∃ r ∈ dedupPass2 bIns l seen, keyOf r = keyOf x := by
  intro l
  induction l with
  | nil => intro seen x h; simp at h
  | cons a rest ih =>
    intro seen x hx hbx hdx
    simp only [dedupPass2]
    by_cases hba : isBuiltInDetection bIns a = true
    · rw [if_pos hba]
      rcases List.mem_cons.mp hx with h2 | h2
      · subst h2; exact absurd hba (by simp [hbx])
      · exact ih seen x h2 hbx hdx
    · rw [if_neg hba]
      by_cases hdup : (isDuplicateOfBuiltIn bIns a || decide (keyOf a ∈ seen)) = true
      · rw [if_pos (by simpa using hdup)]
        rcases List.mem_cons.mp hx with h2 | h2
        · subst h2
          simp only [hdx, Bool.false_or, decide_eq_true_eq] at hdup
          exact Or.inl hdup
        · exact ih seen x h2 hbx hdx
      · rw [if_neg (by simpa using hdup)]
        rcases List.mem_cons.mp hx with h2 | h2
        · subst h2
          exact Or.inr ⟨x, List.mem_cons_self _ _, rfl⟩
        · rcases ih (keyOf a :: seen) x h2 hbx hdx with h3 | ⟨r, hr, hk⟩
          · rcases List.mem_cons.mp h3 with h4 | h4
            · exact Or.inr ⟨a, List.mem_cons_self _ _, h4.symm⟩
            · exact Or.inl h4
          · exact Or.inr ⟨r, List.mem_cons_of_mem _ hr, hk⟩

theorem keyOf_isDup {bIns : List DetectionResult} {a r : DetectionResult}
    (h : keyOf a = keyOf r) :
    isDuplicateOfBuiltIn bIns a = isDuplicateOfBuiltIn bIns r := by
  simp only [keyOf, Prod.mk.injEq] at h
  simp only [isDuplicateOfBuiltIn, h.1, h.2.1, h.2.2]

theorem pass2_not_dup {bIns : List DetectionResult} :
    ∀ (l : List DetectionResult) (seen : List (Str × Option Nat × Option Nat)),
      ∀ r ∈ dedupPass2 bIns l seen, isDuplicateOfBuiltIn bIns r = false := by
  intro l
  induction l with
  | nil => intro seen r h; simp [dedupPass2] at h
  | cons a rest ih =>
    intro seen r h
    simp only [dedupPass2] at h
    by_cases hba : isBuiltInDetection bIns a = true
    · rw [if_pos hba] at h
      exact ih seen r h
    · rw [if_neg hba] at h
      by_cases hdup : (isDuplicateOfBuiltIn bIns a || decide (keyOf a ∈ seen)) = true
      · rw [if_pos (by simpa using hdup)] at h
        exact ih seen r h
      · rw [if_neg (by simpa using hdup)] at h
        rcases List.mem_cons.mp h with h2 | h2
        · subst h2
          simp only [Bool.or_eq_true, decide_eq_true_eq, not_or] at hdup
          simpa using hdup.1
        · exact ih _ r h2

theorem find?_append_of_some {α : Type} {p : α → Bool} :
    ∀ {l1 : List α} (l2 : List α) {b : α}, l1.find? p = some b →
      (l1 ++ l2).find? p = some b := by
  intro l1
  induction l1 with
  | nil => intro l2 b h; simp [List.find?] at h
  | cons a rest ih =>
    intro l2 b h
    by_cases hpa : p a = true
    · rw [List.find?_cons_of_pos _ hpa] at h
      show List.find? p (a :: (rest ++ l2)) = some b
      rw [List.find?_cons_of_pos _ hpa]
      exact h
    · rw [List.find?_cons_of_neg _ hpa] at h
      show List.find? p (a :: (rest ++ l2)) = some b
      rw [List.find?_cons_of_neg _ hpa]
      exact ih l2 h

theorem find?_append_of_none {α : Type} {p : α → Bool} :
    ∀ {l1 : List α} (l2 : List α), l1.find? p = none →
      (l1 ++ l2).find? p = l2.find? p := by
  intro l1
  induction l1 with
  | nil => intro l2 _; rfl
  | cons a rest ih =>
    intro l2 h
    by_cases hpa : p a = true
    · rw [List.find?_cons_of_pos _ hpa] at h
      simp at h
    · rw [List.find?_cons_of_neg _ hpa] at h
      show List.find? p (a :: (rest ++ l2)) = List.find? p l2
      rw [List.find?_cons_of_neg _ hpa]
      exact ih l2 h

theorem pass1_first {bIns : List DetectionResult} :
    ∀ (l : List DetectionResult) (seen : List (Str × Option Nat × Option Nat)),
      (∀ x ∈ l, isBuiltInDetection bIns x = true) →
      ∀ r ∈ (dedupPass1 bIns l seen).1,
        l.find? (fun x => decide (keyOf x = keyOf r)) = some r := by
  intro l
  induction l with
  | nil => intro seen _ r h; simp [dedupPass1] at h
  | cons a rest ih =>
    intro seen hall r h
    have hba : isBuiltInDetection bIns a = true := hall a (List.mem_cons_self _ _)
    have hrest : ∀ x ∈ rest, isBuiltInDetection bIns x = true :=
      fun x hx => hall x (List.mem_cons_of_mem _ hx)
    simp only [dedupPass1] at h
    rw [if_pos hba] at h
    by_cases hsa : keyOf a ∈ seen
    · rw [if_pos hsa] at h
      have hkr : keyOf r ∉ seen := (@pass1_spec bIns rest seen).2.1 r h
      have hne : ¬ (keyOf a = keyOf r) := fun he => hkr (he ▸ hsa)
      rw [List.find?_cons_of_neg _ (by simpa using hne)]
      exact ih seen hrest r h
    · rw [if_neg hsa] at h
      rcases List.mem_cons.mp h with h2 | h2
      · subst h2
        rw [List.find?_cons_of_pos _ (by simp)]
      · have hkr : keyOf r ∉ (keyOf a :: seen) :=
          (@pass1_spec bIns rest (keyOf a :: seen)).2.1 r h2
        have hne : ¬ (keyOf a = keyOf r) :=
          fun he => hkr (he ▸ List.mem_cons_self (keyOf a) seen)
        rw [List.find?_cons_of_neg _ (by simpa using hne)]
        exact ih (keyOf a :: seen) hrest r h2

theorem pass2_first {bIns : List DetectionResult} :
    ∀ (l : List DetectionResult) (seen : List (Str × Option Nat × Option Nat)),
      (∀ x ∈ l, isBuiltInDetection bIns x = false) →
      ∀ r ∈ dedupPass2 bIns l seen,
        l.find? (fun x => decide (keyOf x = keyOf r)) = some r := by
  intro l
  induction l with
  | nil => intro seen _ r h; simp [dedupPass2] at h
  | cons a rest ih =>
    intro seen hall r h
    have hba : isBuiltInDetection bIns a = false := hall a (List.mem_cons_self _ _)
    have hrest : ∀ x ∈ rest, isBuiltInDetection bIns x = false :=
      fun x hx => hall x (List.mem_cons_of_mem _ hx)
    simp only [dedupPass2] at h
    rw [if_neg (by simp [hba])] at h
    by_cases hdup : (isDuplicateOfBuiltIn bIns a || decide (keyOf a ∈ seen)) = true
    · rw [if_pos (by simpa using hdup)] at h
      have hnd : isDuplicateOfBuiltIn bIns r = false := pass2_not_dup rest seen r h
      have hks : keyOf r ∉ seen := (@pass2_spec bIns rest seen).2 r h
      have hne : ¬ (keyOf a = keyOf r) := by
        intro he
        simp only [Bool.or_eq_true, decide_eq_true_eq] at hdup
        rcases hdup with hd | hs
        · rw [keyOf_isDup he, hnd] at hd
          cases hd
        · exact hks (he ▸ hs)
      rw [List.find?_cons_of_neg _ (by simpa using hne)]
      exact ih seen hrest r h
    · rw [if_neg (by simpa using hdup)] at h
      rcases List.mem_cons.mp h with h2 | h2
      · subst h2
        rw [List.find?_cons_of_pos _ (by simp)]
      · have hkr : keyOf r ∉ (keyOf a :: seen) :=
          (@pass2_spec bIns rest (keyOf a :: seen)).2 r h2
        have hne : ¬ (keyOf a = keyOf r) :=
          fun he => hkr (he ▸ List.mem_cons_self (keyOf a) seen)
        rw [List.find?_cons_of_neg _ (by simpa using hne)]
        exact ih (keyOf a :: seen) hrest r h2

/-- Claim C3 (confirmed): the merged output of `detectPii` is a sublist of
the raw result list (built-in detections first, then custom ones, in matcher
order); its keys (value, start, end) are pairwise distinct; every raw
detection's key is represented and the representative is the FIRST raw
detection carrying that key (first occurrence wins, built-ins — which come
first in the raw list — beating custom ones); the output splits into
built-in-classified results followed by custom ones; and every custom-sourced
result (the ones carrying a `patternName`) differs from every built-in
detection on the (value, start, end) triple — an exactly-coinciding custom
match is dropped. -/
theorem C3_merge_dedup (cps : List CustomPattern) (text : Str)
    (htext : ¬ text.length = 0) :
    (detectPii cps text).Sublist
      (builtinDetections text ++
        customDetections (builtinDetections text) cps text) ∧
    (detectPii cps text).Pairwise (fun a b => keyOf a ≠ keyOf b) ∧
    (∀ x ∈ builtinDetections text ++
        customDetections (builtinDetections text) cps text,
      ∃ r ∈ detectPii cps text, keyOf r = keyOf x) ∧
    (∃ o1 o2, detectPii cps text = o1 ++ o2 ∧
      (∀ r ∈ o1, isBuiltInDetection (builtinDetections text) r = true) ∧
      (∀ r ∈ o2, isBuiltInDetection (builtinDetections text) r = false)) ∧
    (∀ r ∈ detectPii cps text, r.patternName ≠ none →
      ¬ ∃ b ∈ builtinDetections text,
        b.value = r.value ∧ b.start = r.start ∧ b.stop = r.stop) ∧
    (∀ r ∈ detectPii cps text,
      (builtinDetections text ++
        customDetections (builtinDetections text) cps text).find?
          (fun x => decide (keyOf x = keyOf r)) = some r) := by
  have hout : detectPii cps text =
      dedupResults (builtinDetections text)
        (builtinDetections text ++
          customDetections (builtinDetections text) cps text) := by
    rw [detectPii, if_neg htext]
  set bIns := builtinDetections text with hbins
  set customs := customDetections bIns cps text with hcustoms
  have hp1 : dedupPass1 bIns (bIns ++ customs) [] =
      ((dedupPass1 bIns bIns []).1, (dedupPass1 bIns bIns []).2) := by
    rw [pass1_append bIns customs []]
    rw [pass1_none customs _ (fun r hr => customs_not_BI hr)]
    simp
  have ho1 : (dedupPass1 bIns (bIns ++ customs) []).1 =
      (dedupPass1 bIns bIns []).1 := by rw [hp1]
  have hsn : (dedupPass1 bIns (bIns ++ customs) []).2 =
      (dedupPass1 bIns bIns []).2 := by rw [hp1]
  set o1 := (dedupPass1 bIns bIns []).1 with ho1def
  set sn := (dedupPass1 bIns bIns []).2 with hsndef
  have ho2 : dedupPass2 bIns (bIns ++ customs) sn =
      dedupPass2 bIns customs sn :=
    pass2_skip_BI bIns customs sn (fun r hr => isBI_self hr)
  set o2 := dedupPass2 bIns customs sn with ho2def
  have houteq : detectPii cps text = o1 ++ o2 := by
    rw [hout]
    show (dedupPass1 bIns (bIns ++ customs) []).1 ++
      dedupPass2 bIns (bIns ++ customs) (dedupPass1 bIns (bIns ++ customs) []).2 =
      o1 ++ o2
    rw [ho1, hsn, ho2]
  obtain ⟨hpw1, hseen1, hkeys1⟩ := @pass1_spec bIns bIns []
  obtain ⟨hpw2, hseen2⟩ := @pass2_spec bIns customs sn
  have hkey_in_sn : ∀ r ∈ o1, keyOf r ∈ sn := by
    intro r hr
    exact (hkeys1 (keyOf r)).mpr (Or.inr ⟨r, hr, rfl⟩)
  have hsn_in_o1 : ∀ k, k ∈ sn → ∃ r ∈ o1, keyOf r = k := by
    intro k hk
    rcases (hkeys1 k).mp hk with h | h
    · simp at h
    · exact h
  refine ⟨?_, ?_, ?_, ?_, ?_, ?_⟩
  · rw [houteq]
    exact List.Sublist.append (pass1_sublist bIns []) (pass2_sublist customs sn)
  · rw [houteq]
    refine List.pairwise_append.mpr ⟨hpw1, hpw2, ?_⟩
    intro a ha b hb heq
    exact hseen2 b hb (heq ▸ hkey_in_sn a ha)
  · intro x hx
    rw [houteq]
    by_cases hbx : isBuiltInDetection bIns x = true
    · rcases pass1_covers (bIns ++ customs) [] x hx hbx with h | ⟨r, hr, hk⟩
      · simp at h
      · rw [ho1] at hr
        exact ⟨r, List.mem_append_left _ hr, hk⟩
    · have hbx2 : isBuiltInDetection bIns x = false := by simpa using hbx
      by_cases hdx : isDuplicateOfBuiltIn bIns x = true
      · obtain ⟨b, hb, hkb⟩ := isDuplicate_key hdx
        rcases pass1_covers (bIns ++ customs) [] b (List.mem_append_left _ hb)
            (isBI_self hb) with h | ⟨r, hr, hk⟩
        · simp at h
        · rw [ho1] at hr
          exact ⟨r, List.mem_append_left _ hr, hk.trans hkb⟩
      · have hdx2 : isDuplicateOfBuiltIn bIns x = false := by simpa using hdx
        have hmem : x ∈ customs := by
          rcases List.mem_append.mp hx with h | h
          · exact absurd (isBI_self h) (by simp [hbx2])
          · exact h
        rcases pass2_covers customs sn x hmem hbx2 hdx2 with h | ⟨r, hr, hk⟩
        · obtain ⟨r, hr, hk⟩ := hsn_in_o1 _ h
          exact ⟨r, List.mem_append_left _ hr, hk⟩
        · exact ⟨r, List.mem_append_right _ hr, hk⟩
  · exact ⟨o1, o2, houteq, pass1_all_BI bIns [], pass2_all_not_BI customs sn⟩
  · intro r hr hpn hex
    obtain ⟨b, hb, h1, h2, h3⟩ := hex
    have hrres : r ∈ bIns ++ customs := by
      rw [houteq] at hr
      rcases List.mem_append.mp hr with h | h
      · exact List.mem_append_left _ ((pass1_sublist bIns []).subset h)
      · exact List.mem_append_right _ ((pass2_sublist customs sn).subset h)
    rcases List.mem_append.mp hrres with h | h
    · exact hpn (builtin_patternName_none h)
    · obtain ⟨cp, hcp, re, hre, m, hm, hmk⟩ := mem_customDetections h
      obtain ⟨-, -, -, -, -, -, had⟩ := mkCustom_inv hmk
      have : alreadyDetected bIns r.value r.start r.stop = true :=
        alreadyDetected_iff.mpr ⟨b, hb, h1, h2, h3⟩
      rw [this] at had
      cases had
  · intro r hr
    rw [houteq] at hr
    rcases List.mem_append.mp hr with h | h
    · exact find?_append_of_some customs
        (pass1_first bIns [] (fun x hx => isBI_self hx) r h)
    · have h2 : customs.find? (fun x => decide (keyOf x = keyOf r)) = some r :=
        pass2_first customs sn (fun x hx => customs_not_BI hx) r h
      have hnone : bIns.find? (fun x => decide (keyOf x = keyOf r)) = none := by
        rw [List.find?_eq_none]
        intro b hb
        simp only [decide_eq_true_eq]
        intro he
        have hdup : isDuplicateOfBuiltIn bIns r = true := by
          simp only [isDuplicateOfBuiltIn, List.any_eq_true]
          refine ⟨b, hb, ?_⟩
          simp only [keyOf, Prod.mk.injEq] at he
          simp [he.1, he.2.1, he.2.2]
        rw [pass2_not_dup customs sn r h] at hdup
        cases hdup
      rw [find?_append_of_none customs hnone]
      exact h2

/-- Witness for C3 at a concrete scan. -/
theorem C3_merge_dedup_witness :
    (detectPii [] (str "a@b.com")).Sublist
      (builtinDetections (str "a@b.com") ++
        customDetections (builtinDetections (str "a@b.com")) [] (str "a@b.com")) :=
  (C3_merge_dedup [] (str "a@b.com") (by decide)).1
